import Mathlib

/-!
Verification of the streaming DAG execution engine (`service_DAG`):
shallow embedding of the graph model and its validator, the streaming
executor's routing and retry logic, the event bus, the type registry and
the metrics collector, together with theorems settling the specified
properties against the embedded code.
-/

set_option maxRecDepth 4096

namespace ServiceDAG

/-! ## Metrics collector (`core/metrics.py`)

`NodeMetrics` keeps per-node counters; `add_execution` records one run and
`get_average_time` derives the mean runtime.  Times are modelled as
rationals.  The Python `deque(maxlen=100)` of recent times is modelled as a
list truncated to its last 100 elements. -/

/-- Per-node performance counters, mirroring the fields of the Python
dataclass `NodeMetrics` (the node id is irrelevant for the arithmetic and
omitted). -/
structure NodeMetrics where
  execution_count : Nat := 0
  error_count : Nat := 0
  total_execution_time : ℚ := 0
  min_execution_time : Option ℚ := none
  max_execution_time : ℚ := 0
  recent_times : List ℚ := []
  deriving Repr, DecidableEq

namespace NodeMetrics

/-- `min` against the running minimum, where `none` models the Python
initial value `float(inf)`. -/
def minUpdate (cur : Option ℚ) (t : ℚ) : Option ℚ :=
  match cur with
  | none => some t
  | some m => some (min m t)

/-- `NodeMetrics.add_execution`: the execution counter always increments;
on failure the error counter increments and the method returns before any
time accounting happens. -/
def add_execution (m : NodeMetrics) (execution_time : ℚ) (success : Bool) : NodeMetrics :=
  let m := { m with execution_count := m.execution_count + 1 }
  if !success then
    { m with error_count := m.error_count + 1 }
  else
    { m with
      total_execution_time := m.total_execution_time + execution_time
      min_execution_time := minUpdate m.min_execution_time execution_time
      max_execution_time := max m.max_execution_time execution_time
      recent_times := (m.recent_times ++ [execution_time]).reverse.take 100 |>.reverse }

/-- `NodeMetrics.get_average_time`: returns `0.0` when no execution was
recorded, and otherwise divides the accumulated time by
`execution_count - error_count`.  Python raises `ZeroDivisionError` when
that divisor is zero; the raise is modelled as `none`. -/
def get_average_time (m : NodeMetrics) : Option ℚ :=
  if m.execution_count = 0 then some 0
  else if (m.execution_count : ℤ) - (m.error_count : ℤ) = 0 then none
  else some (m.total_execution_time / (((m.execution_count : ℚ) - (m.error_count : ℚ))))

/-- `NodeMetrics.get_error_rate`. -/
def get_error_rate (m : NodeMetrics) : ℚ :=
  if m.execution_count = 0 then 0
  else (m.error_count : ℚ) / (m.execution_count : ℚ)

/-- A metrics state reached from the initial state by recording one failed
execution per listed time (the path `add_execution(t, success=False)`). -/
def afterFailures (times : List ℚ) : NodeMetrics :=
  times.foldl (fun m t => m.add_execution t false) {}

end NodeMetrics

/-! ## Retry logic (`engine/streaming_executor.py`, `_execute_node_with_retry`)

One `run` invocation either succeeds, returns a failure result, or raises.
The loop makes at most `max_retries` attempts; between failed attempts
(when the strategy is `retry`) it sleeps `0.1 * (attempt + 1)` seconds.
The model returns the final success flag, the error carried by the final
result, and the list of sleep durations in order. -/

inductive RunOutcome
  | ok
  | failResult (err : String)
  | raised (err : String)
  deriving Repr, DecidableEq

/-- Result of the retry wrapper: final success flag, error message of the
final `NodeResult` (if failed), and the sleeps performed, in seconds. -/
structure RetryTrace where
  success : Bool
  error : Option String
  sleeps : List ℚ
  deriving Repr, DecidableEq

/-- The body of `_execute_node_with_retry`'s
`for attempt in range(max_retries)` loop: `attempt` is the current index
and `remaining` the number of indices the range still holds (so the loop
runs exactly `max_retries` times).  `outcomes attempt` is what `node.run`
does on that attempt.  On a failure with attempts left under the `retry`
strategy the loop sleeps `0.1 * (attempt + 1)` seconds and continues;
falling out of the range returns the `Max retries exceeded` result. -/
def executeWithRetryFrom (strategy : String) (maxRetries : Nat)
    (outcomes : Nat → RunOutcome) : Nat → Nat → RetryTrace
  | _, 0 => { success := false, error := some "Max retries exceeded", sleeps := [] }
  | attempt, remaining + 1 =>
    match outcomes attempt with
    | .ok => { success := true, error := none, sleeps := [] }
    | .failResult err =>
      if attempt < maxRetries - 1 ∧ strategy = "retry" then
        let rest := executeWithRetryFrom strategy maxRetries outcomes (attempt + 1) remaining
        { rest with sleeps := (1/10 : ℚ) * (attempt + 1) :: rest.sleeps }
      else
        { success := false, error := some err, sleeps := [] }
    | .raised err =>
      if attempt < maxRetries - 1 ∧ strategy = "retry" then
        let rest := executeWithRetryFrom strategy maxRetries outcomes (attempt + 1) remaining
        { rest with sleeps := (1/10 : ℚ) * (attempt + 1) :: rest.sleeps }
      else
        { success := false, error := some err, sleeps := [] }

/-- `_execute_node_with_retry`: the loop started at attempt 0 with the
full range ahead of it. -/
def executeWithRetry (strategy : String) (maxRetries : Nat)
    (outcomes : Nat → RunOutcome) : RetryTrace :=
  executeWithRetryFrom strategy maxRetries outcomes 0 maxRetries

/-- The delay the specification prescribes before retry `attempt`:
exponential backoff `base_delay * 2 ^ attempt` with `base_delay = 0.1`. -/
def specBackoffDelay (attempt : Nat) : ℚ := (1/10 : ℚ) * 2 ^ attempt

/-- `_handle_node_error`: actions taken on a final failure (after the retry
wrapper gave up).  The error event is always published; the strategies
other than `circuit-break` and `restart` (so `skip` and `retry`) take no
further action, which drops the triggering packet. -/
structure ErrorHandling where
  publishedNodeError : Bool
  stopsExecutor : Bool
  restartsNode : Bool
  requeuesPacket : Bool
  deriving Repr, DecidableEq

/-- Model of `StreamingExecutor._handle_node_error`. -/
def handleNodeError (strategy : String) : ErrorHandling :=
  { publishedNodeError := true
    stopsExecutor := strategy = "circuit-break"
    restartsNode := strategy = "restart"
    requeuesPacket := false }

/-! ## Type system (`core/data_types.py`)

Each built-in descriptor class is one constructor; the constructor fields
are the Python constructor parameters that the class stores.  Confidence
thresholds and numeric bounds are rationals. -/

inductive ImageFormat
  | gray | rgb | bgr | rgba | bgra
  deriving Repr, DecidableEq

/-- The built-in data-type descriptor classes of `data_types.py`. -/
inductive DataTypeDesc
  | imageType (format : Option ImageFormat) (minWidth minHeight : Option Nat)
  | bboxType (minConfidence : ℚ)
  | detectionListType (minConfidence : ℚ)
  | metadataType (requiredKeys : List String)
  | stringType (maxLength : Option Nat) (pattern : Option String)
  | numberType (minValue maxValue : Option ℚ) (integerOnly : Bool)
  | booleanType
  deriving Repr, DecidableEq

namespace DataTypeDesc

/-- Python `type(self) == type(other)`: same descriptor class, parameters
ignored. -/
def sameClass : DataTypeDesc → DataTypeDesc → Bool
  | imageType _ _ _, imageType _ _ _ => true
  | bboxType _, bboxType _ => true
  | detectionListType _, detectionListType _ => true
  | metadataType _, metadataType _ => true
  | stringType _ _, stringType _ _ => true
  | numberType _ _ _, numberType _ _ _ => true
  | booleanType, booleanType => true
  | _, _ => false

/-- `is_compatible`: `ImageType` overrides the base implementation (any
non-image is incompatible; images are compatible when either format is
unconstrained or the formats match); every other built-in class uses the
base `type(self) == type(other)` check. -/
def is_compatible (a b : DataTypeDesc) : Bool :=
  match a, b with
  | imageType f _ _, imageType g _ _ =>
    match f, g with
    | none, _ => true
    | _, none => true
    | some f, some g => f = g
  | imageType _ _ _, _ => false
  | a, b => sameClass a b

end DataTypeDesc

/-- The registry's backing dict `_types : name -> descriptor`. -/
def TypeRegistry := List (String × DataTypeDesc)

/-- `TypeRegistry.get`. -/
def TypeRegistry.get (reg : TypeRegistry) (name : String) : Option DataTypeDesc :=
  (List.lookup name reg : Option DataTypeDesc)

/-- `TypeRegistry.check_compatibility`: unknown names on either side give
`False`, otherwise the source descriptor's `is_compatible` decides. -/
def TypeRegistry.check_compatibility (reg : TypeRegistry) (src dst : String) : Bool :=
  match reg.get src, reg.get dst with
  | some s, some t => s.is_compatible t
  | _, _ => false

/-- The registry populated by `_register_builtin_types`: the seven built-in
descriptors under their type names, each constructed with the Python
default parameters. -/
def builtinRegistry : TypeRegistry :=
  [ ("Image", .imageType none none none),
    ("BBox", .bboxType 0),
    ("DetectionList", .detectionListType 0),
    ("Metadata", .metadataType []),
    ("String", .stringType none none),
    ("Number", .numberType none none false),
    ("Boolean", .booleanType) ]

/-! ## Graph model (`engine/graph.py`)

`GraphDefinition` is the declarative description; `Graph` holds the node
instances (added with `add_node`) and the adjacency maps built in
`__init__` from the enabled connections.  Node configs and document
metadata pass through unchanged; they are modelled as association lists of
strings. -/

/-- Free-form JSON mappings (node `config`, document `metadata`) that the
engine never inspects. -/
abbrev ConfigMap := List (String × String)

/-- `NodeDefinition` dataclass.  The Python `position` is
`tuple(...)` of a JSON array; it is kept as the list of its entries. -/
structure NodeDefinition where
  id : String
  type : String
  config : ConfigMap := []
  position : List Int := [0, 0]
  enabled : Bool := true
  deriving Repr, DecidableEq

/-- `Connection` dataclass. -/
structure Connection where
  from_node : String
  from_port : String
  to_node : String
  to_port : String
  enabled : Bool := true
  deriving Repr, DecidableEq

/-- `GraphDefinition` dataclass. -/
structure GraphDefinition where
  name : String
  version : String
  nodes : List NodeDefinition := []
  connections : List Connection := []
  metadata : ConfigMap := []
  deriving Repr, DecidableEq

/-- One declared port of a node instance, as reported by `get_ports()`:
the fields of `Port` that the validator consults. -/
structure Port where
  name : String
  typeName : String
  required : Bool := true
  deriving Repr, DecidableEq

/-- The face of a node instance (`INode`) seen by the graph validator: its
declared input and output ports. -/
structure NodeInst where
  inputs : List Port := []
  outputs : List Port := []
  deriving Repr, DecidableEq

/-- Adjacency maps `node_id -> [node_ids]` (Python dicts as ordered
association lists). -/
abbrev AdjMap := List (String × List String)

namespace AdjMap

/-- `self.adjacency.get(node_id, [])`. -/
def getD (adj : AdjMap) (u : String) : List String :=
  ((List.lookup u adj).getD [] : List String)

/-- Dict key membership. -/
def hasKey (adj : AdjMap) (u : String) : Bool :=
  (List.lookup u adj).isSome

/-- `self.adjacency[key].append(value)`; `none` models the `KeyError`
Python raises when the key is absent. -/
def appendAt (adj : AdjMap) (key value : String) : Option AdjMap :=
  match adj with
  | [] => none
  | (k, vs) :: rest =>
    if k = key then some ((k, vs ++ [value]) :: rest)
    else (appendAt rest key value).map ((k, vs) :: ·)

/-- Adding a fresh key with an empty list (used by `__init__` and
`add_node`). -/
def ensureKey (adj : AdjMap) (key : String) : AdjMap :=
  if adj.hasKey key then adj else adj ++ [(key, [])]

end AdjMap

/-- The `Graph` object: node instances, connections and both adjacency
maps. -/
structure Graph where
  definition : GraphDefinition
  nodes : List (String × NodeInst) := []
  connections : List Connection := []
  adjacency : AdjMap := []
  reverse_adjacency : AdjMap := []
  deriving Repr, DecidableEq

namespace Graph

/-- The `for node_def in definition.nodes` loop of `Graph.__init__`: every
definition node gets an empty adjacency entry. -/
def baseAdj (nodes : List NodeDefinition) : AdjMap :=
  nodes.map (fun nd => (nd.id, []))

/-- The `for conn in self.connections` loop of `Graph.__init__`: each
enabled connection appends to the forward and the reverse map; a missing
endpoint key raises `KeyError`, modelled as `none`. -/
def initFold : List Connection → AdjMap × AdjMap → Option (AdjMap × AdjMap)
  | [], m => some m
  | conn :: rest, m =>
    if conn.enabled then
      match AdjMap.appendAt m.1 conn.from_node conn.to_node with
      | none => none
      | some fwd =>
        match AdjMap.appendAt m.2 conn.to_node conn.from_node with
        | none => none
        | some rev => initFold rest (fwd, rev)
    else initFold rest m

/-- `Graph.__init__`: store the definition and connections and build both
adjacency maps from the enabled connections. -/
def init (d : GraphDefinition) : Option Graph :=
  (initFold d.connections (baseAdj d.nodes, baseAdj d.nodes)).map
    (fun maps =>
      { definition := d, nodes := [], connections := d.connections,
        adjacency := maps.1, reverse_adjacency := maps.2 })

/-- `Graph.add_node`: store the instance and make sure both adjacency maps
have a key for it. -/
def add_node (g : Graph) (node_id : String) (inst : NodeInst) : Graph :=
  { g with
    nodes := g.nodes ++ [(node_id, inst)]
    adjacency := g.adjacency.ensureKey node_id
    reverse_adjacency := g.reverse_adjacency.ensureKey node_id }

/-- The standard construction path (`main_dag.py` / `run_mvp.py`):
`Graph(graph_def)` followed by one `add_node` per instantiated node. -/
def mkGraph (d : GraphDefinition) (insts : List (String × NodeInst)) : Option Graph :=
  (init d).map (fun g => insts.foldl (fun g p => g.add_node p.1 p.2) g)

/-- `self.nodes.get(node_id)`. -/
def get_node (g : Graph) (node_id : String) : Option NodeInst :=
  (List.lookup node_id g.nodes : Option NodeInst)

/-- Instance-dict key membership (`node_id in self.nodes`). -/
def hasNode (g : Graph) (node_id : String) : Bool :=
  (g.get_node node_id).isSome

/-- `Graph.get_connections_from`: the enabled connections leaving a
node. -/
def get_connections_from (g : Graph) (node_id : String) : List Connection :=
  g.connections.filter (fun c => c.from_node = node_id && c.enabled)

end Graph

/-! ### Cycle detection (`Graph._has_cycle`)

The Python `dfs` is an unbounded recursion over the shared `visited` and
`rec_stack` sets; the functional rendering threads `visited` through and
passes the chain of active calls as `stack`.  Recursion depth is bounded
by the number of distinct nodes, so the embedding carries a fuel that the
caller sets above that bound; `dfsLoop_false_sufficient` below proves the
fuel is never exhausted on the runs the engine performs. -/

mutual

/-- Body of `dfs(node_id)`: mark visited, push onto the recursion stack,
then scan the neighbours. -/
def dfsVisit (adj : AdjMap) (fuel : Nat) (u : String)
    (stack visited : List String) : Bool × List String :=
  match fuel with
  | 0 => (false, visited)
  | Nat.succ f => dfsLoop adj f (adj.getD u) (u :: stack) (u :: visited)
termination_by (fuel, 0)

/-- The `for neighbor in self.adjacency.get(node_id, [])` loop: a visited
neighbour on the recursion stack means a cycle; an unvisited neighbour is
explored recursively. -/
def dfsLoop (adj : AdjMap) (fuel : Nat) (ns : List String)
    (stack visited : List String) : Bool × List String :=
  match ns with
  | [] => (false, visited)
  | n :: ns' =>
    if n ∈ visited then
      if n ∈ stack then (true, visited) else dfsLoop adj fuel ns' stack visited
    else
      match dfsVisit adj fuel n stack visited with
      | (true, v') => (true, v')
      | (false, v') => dfsLoop adj fuel ns' stack v'
termination_by (fuel, ns.length + 1)

end

/-- The `for node_id in self.nodes` loop of `_has_cycle`, threading the
shared `visited` set. -/
def dfsTop (adj : AdjMap) (fuel : Nat) : List String → List String → Bool
  | [], _ => false
  | s :: ss, visited =>
    if s ∈ visited then dfsTop adj fuel ss visited
    else
      match dfsVisit adj fuel s [] visited with
      | (true, _) => true
      | (false, v') => dfsTop adj fuel ss v'

namespace Graph

/-- Every node id the DFS can ever touch: the instance ids it starts from
and every key and every neighbour of the adjacency map. -/
def dfsUniverse (g : Graph) : List String :=
  g.nodes.map Prod.fst ++ g.adjacency.map Prod.fst
    ++ (g.adjacency.map Prod.snd).flatten

/-- `Graph._has_cycle`: depth-first search from every node instance with
the shared `visited` set; the fuel exceeds the number of reachable nodes,
so it mirrors the unbounded Python recursion. -/
def has_cycle (g : Graph) : Bool :=
  dfsTop g.adjacency (g.dfsUniverse.length + 1) (g.nodes.map Prod.fst) []

end Graph

/-- The errors `Graph.validate` can raise.  `cycleDetected` is the
`CycleDetectedError` of the first check; the remaining constructors are
the `GraphValidationError`s of the later checks, with the context their
messages carry. -/
inductive GraphError
  | cycleDetected
  | nodeInstanceMissing (id : String)
  | sourceNodeMissing (id : String)
  | targetNodeMissing (id : String)
  | outputPortMissing (node port : String)
  | inputPortMissing (node port : String)
  | missingRequiredInputs (node : String) (ports : List String)
  deriving Repr, DecidableEq

namespace Graph

/-- `Graph._validate_node_definitions`: the first definition node without
an instance raises. -/
def validate_node_definitions (g : Graph) : Except GraphError Unit :=
  match g.definition.nodes.find? (fun nd => !(g.hasNode nd.id)) with
  | some nd => .error (.nodeInstanceMissing nd.id)
  | none => .ok ()

/-- The body of the `_validate_connections` loop for one connection:
disabled connections are skipped; both endpoint nodes and both ports must
exist.  The port type-compatibility check is absent, mirroring the source,
whose comment says it is temporarily skipped. -/
def checkConnection (g : Graph) (conn : Connection) : Except GraphError Unit :=
  if !conn.enabled then .ok ()
  else if !(g.hasNode conn.from_node) then .error (.sourceNodeMissing conn.from_node)
  else if !(g.hasNode conn.to_node) then .error (.targetNodeMissing conn.to_node)
  else
    match ((g.get_node conn.from_node).getD {}).outputs.find?
        (fun p => p.name = conn.from_port) with
    | none => .error (.outputPortMissing conn.from_node conn.from_port)
    | some _ =>
      match ((g.get_node conn.to_node).getD {}).inputs.find?
          (fun p => p.name = conn.to_port) with
      | none => .error (.inputPortMissing conn.to_node conn.to_port)
      | some _ => .ok ()

/-- `Graph._validate_connections`: check each connection in order, raising
at the first failure. -/
def validate_connections (g : Graph) : Except GraphError Unit :=
  g.connections.foldlM (fun _ conn => checkConnection g conn) ()

/-- The `missing = required_inputs - connected_inputs` computation of
`_validate_required_inputs` for one node instance. -/
def requiredMissing (g : Graph) (node_id : String) (inst : NodeInst) : List String :=
  ((inst.inputs.filter (fun p => p.required)).map Port.name).filter
    (fun nm => !(g.connections.any
      (fun c => c.to_node = node_id && c.enabled && c.to_port = nm)))

/-- `Graph._validate_required_inputs`: every node instance must have every
required input name among the target ports of the enabled connections
into it. -/
def validate_required_inputs (g : Graph) : Except GraphError Unit :=
  g.nodes.foldlM
    (fun _ p =>
      let missing := requiredMissing g p.1 p.2
      if missing.isEmpty then pure ()
      else .error (.missingRequiredInputs p.1 missing))
    ()

/-- `Graph.validate`: cycle check, then node definitions, then
connections, then required inputs; `True` when every check passes. -/
def validate (g : Graph) : Except GraphError Bool := do
  if g.has_cycle then throw .cycleDetected
  validate_node_definitions g
  validate_connections g
  validate_required_inputs g
  pure true

end Graph

/-! ## Output routing (`StreamingExecutor._push_outputs_to_downstream`)

A runtime value is modelled as a payload plus an object identity
(`addr`); `copy.deepcopy` yields a value with the same payload under a
fresh identity, so the model threads an allocation counter.  The function
is rendered as a pure trace: the `data.branch` events published and the
`(to_node, packet)` queue pushes, in order. -/

/-- A Python object flowing between nodes: its content (`payload`) and its
identity (`addr`). -/
structure Val where
  addr : Nat
  payload : Nat
  deriving Repr, DecidableEq

/-- `copy.deepcopy`: same content, fresh identity. -/
def deepcopy (v : Val) (next : Nat) : Val × Nat :=
  ({ addr := next, payload := v.payload }, next + 1)

/-- The `DataPacket` dataclass (timestamp and metadata omitted: the
routing logic never reads them). -/
structure DataPacket where
  data : List (String × Val)
  packet_id : String
  ref_count : Int := 1
  deriving Repr, DecidableEq

/-- `DataPacket.decrement_ref`. -/
def DataPacket.decrement_ref (p : DataPacket) : DataPacket :=
  { p with ref_count := p.ref_count - 1 }

/-- A `data.branch` event with its payload `{node_id, port, branch_count}`. -/
structure BranchEvent where
  node_id : String
  port : String
  branch_count : Nat
  deriving Repr, DecidableEq

/-- What one call to `_push_outputs_to_downstream` does: the branch events
published and the packets pushed to downstream queues, in order. -/
structure PushTrace where
  events : List BranchEvent
  pushes : List (String × DataPacket)
  deriving Repr, DecidableEq

/-- Building the `port_connections` dict: Python dicts preserve insertion
order, so grouping keeps the first-occurrence order of ports and the
original order within each port. -/
def insertGrouped (acc : List (String × List Connection)) (c : Connection) :
    List (String × List Connection) :=
  match acc with
  | [] => [(c.from_port, [c])]
  | (p, cs) :: rest =>
    if p = c.from_port then (p, cs ++ [c]) :: rest
    else (p, cs) :: insertGrouped rest c

/-- `port_connections`: the enabled outgoing connections grouped by source
port. -/
def groupByPort (conns : List Connection) : List (String × List Connection) :=
  conns.foldl insertGrouped []

/-- The `for i, conn in enumerate(port_conns)` loop of the branch case:
index 0 carries the original value, later indices carry deep copies. -/
def routeBranchFrom (packet_id : String) (v : Val) :
    List Connection → Nat → Nat → List (String × DataPacket) × Nat
  | [], _, next => ([], next)
  | c :: cs, i, next =>
    let step : Val × Nat := if i = 0 then (v, next) else deepcopy v next
    let pkt : DataPacket :=
      { data := [(c.to_port, step.1)],
        packet_id := packet_id ++ "_branch_" ++ toString i,
        ref_count := 1 }
    let rest := routeBranchFrom packet_id v cs (i + 1) step.2
    ((c.to_node, pkt) :: rest.1, rest.2)

/-- Routing the value of one output port over its connection group: two or
more connections publish one `data.branch` event and fan the value out;
exactly one connection moves the value into a fresh packet unchanged.
(Groups produced by `groupByPort` are never empty; the empty case routes
nothing.) -/
def routeGroup (node_id packet_id : String) (p : String)
    (pconns : List Connection) (v : Val) (next : Nat) : PushTrace × Nat :=
  if pconns.length > 1 then
    let br := routeBranchFrom packet_id v pconns 0 next
    ({ events := [⟨node_id, p, pconns.length⟩], pushes := br.1 }, br.2)
  else
    match pconns with
    | [c] =>
      ({ events := [],
         pushes := [(c.to_node,
           { data := [(c.to_port, v)], packet_id := packet_id, ref_count := 1 })] },
       next)
    | _ => ({ events := [], pushes := [] }, next)

/-- `_push_outputs_to_downstream` on an explicit connection list: group
the connections by port, skip ports absent from the outputs, and route
each remaining group in order. -/
def pushOutputs (node_id : String) (conns : List Connection)
    (outputs : List (String × Val)) (packet_id : String) (next : Nat) :
    PushTrace × Nat :=
  (groupByPort conns).foldl
    (fun acc pr =>
      match (List.lookup pr.1 outputs : Option Val) with
      | none => acc
      | some v =>
        let tr := routeGroup node_id packet_id pr.1 pr.2 v acc.2
        ({ events := acc.1.events ++ tr.1.events,
           pushes := acc.1.pushes ++ tr.1.pushes }, tr.2))
    ({ events := [], pushes := [] }, next)

/-- `_push_outputs_to_downstream` proper: the connections are
`self.graph.get_connections_from(node_id)`. -/
def pushOutputsToDownstream (g : Graph) (node_id : String)
    (outputs : List (String × Val)) (packet_id : String) (next : Nat) :
    PushTrace × Nat :=
  pushOutputs node_id (g.get_connections_from node_id) outputs packet_id next

/-! ## Event bus (`core/event_bus.py`)

`Event.__lt__` compares only priorities (a higher `EventPriority.value`
sorts first).  In async mode `publish` pushes onto a
`queue.PriorityQueue`, which is CPython's `heapq` binary heap ordered by
`__lt__`; the worker thread pops and dispatches.  The heap primitives are
transcribed from CPython's `heapq.heappush`/`heappop`. -/

/-- An event as the bus sees it for ordering and matching: its topic, a
payload distinguishing it, its publisher, and its priority encoded as the
`EventPriority.value` (`LOW = 1`, `NORMAL = 2`, `HIGH = 3`,
`CRITICAL = 4`). -/
structure Event where
  topic : String
  data : String
  source : String
  priorityValue : Nat
  deriving Repr, DecidableEq

/-- `Event.__lt__`: `self.priority.value > other.priority.value`. -/
def Event.lt (a b : Event) : Bool :=
  b.priorityValue < a.priorityValue

/-- Placeholder for out-of-range heap reads (never reached on the inputs
the lemmas use). -/
def dummyEvent : Event := ⟨"", "", "", 0⟩

/-- The `while pos > startpos` loop of CPython `heapq._siftdown`, with
`newitem = heap[pos]` already in hand: move the new item towards the root
while it sorts before its parent.  The parent index `(pos - 1) >> 1` is
strictly smaller than `pos`, so `pos + 1` rounds of fuel always suffice
(see `siftdownFrom`); the 0-fuel branch is unreachable. -/
def siftdownGo (startpos : Nat) (newitem : Event) :
    Nat → List Event → Nat → List Event
  | 0, heap, pos => heap.set pos newitem
  | fuel + 1, heap, pos =>
    if startpos < pos then
      let parentpos := (pos - 1) / 2
      let parent := heap.getD parentpos dummyEvent
      if Event.lt newitem parent then
        siftdownGo startpos newitem fuel (heap.set pos parent) parentpos
      else heap.set pos newitem
    else heap.set pos newitem

/-- CPython `heapq._siftdown(heap, startpos, pos)`. -/
def siftdownFrom (heap : List Event) (startpos pos : Nat) (newitem : Event) :
    List Event :=
  siftdownGo startpos newitem (pos + 1) heap pos

/-- The `while childpos < endpos` loop of CPython `heapq._siftup`, with
`newitem = heap[pos]` in hand: walk the smaller-child path down to a leaf,
then sift the new item back towards the root.  The child index at least
doubles each round, so `heap.length + 1` rounds of fuel always suffice
(see `siftupFrom`); the 0-fuel branch is unreachable. -/
def siftupGo (startpos : Nat) (newitem : Event) :
    Nat → List Event → Nat → List Event
  | 0, heap, pos => siftdownFrom (heap.set pos newitem) startpos pos newitem
  | fuel + 1, heap, pos =>
    if 2 * pos + 1 < heap.length then
      let childpos :=
        if 2 * pos + 2 < heap.length &&
            !(Event.lt (heap.getD (2 * pos + 1) dummyEvent)
                (heap.getD (2 * pos + 2) dummyEvent))
        then 2 * pos + 2 else 2 * pos + 1
      siftupGo startpos newitem fuel
        (heap.set pos (heap.getD childpos dummyEvent)) childpos
    else siftdownFrom (heap.set pos newitem) startpos pos newitem

/-- CPython `heapq._siftup(heap, pos)`. -/
def siftupFrom (heap : List Event) (startpos pos : Nat) (newitem : Event) :
    List Event :=
  siftupGo startpos newitem (heap.length + 1) heap pos

/-- `heapq.heappush`. -/
def heappush (heap : List Event) (item : Event) : List Event :=
  siftdownFrom (heap ++ [item]) 0 heap.length item

/-- `heapq.heappop` (`none` models the `IndexError` on an empty heap). -/
def heappop (heap : List Event) : Option Event × List Event :=
  match heap.getLast? with
  | none => (none, [])
  | some lastelt =>
    let rest := heap.dropLast
    if rest.isEmpty then (some lastelt, [])
    else (some (rest.getD 0 dummyEvent), siftupFrom (rest.set 0 lastelt) 0 0 lastelt)

/-- Popping the whole heap, as the worker loop does once publications have
stopped.  The fuel is the heap size, enough to drain it. -/
def drainHeap : Nat → List Event → List Event
  | 0, _ => []
  | fuel + 1, heap =>
    match heappop heap with
    | (none, _) => []
    | (some e, heap') => e :: drainHeap fuel heap'

/-- Async-mode delivery order for a burst of publications that all happen
before the worker thread runs: the events enter the priority queue in
publication order and the worker dispatches them in pop order. -/
def asyncDeliveryOrder (published : List Event) : List Event :=
  let heap := published.foldl heappush []
  drainHeap heap.length heap

/-- Pattern matching of `_dispatch_event` for one subscriber pattern: the
number of times the subscriber's callback is invoked for a topic.  The
exact match, the `*` subscription, and the dotted-wildcard rule
(`pattern.endswith(".*")` and `topic.startswith(pattern[:-2] + ".")`,
transcribed on the character lists) each contribute one callback. -/
def dispatchCount (pattern topic : String) : Nat :=
  (if pattern = topic then 1 else 0)
    + (if pattern = "*" then 1 else 0)
    + (if List.isSuffixOf ['.', '*'] pattern.toList
          && List.isPrefixOf
              (pattern.toList.take (pattern.toList.length - 2) ++ ['.'])
              topic.toList
       then 1 else 0)

/-- Sync-mode run: each `publish` dispatches inline, so a subscriber
registered under `pattern` receives the matching events (tagged with their
publication index) immediately and in order. -/
def syncRun (pattern : String) (published : List Event) : List (Nat × Event) :=
  published.enum.flatMap
    (fun pr => List.replicate (dispatchCount pattern pr.2.topic) pr)

/-! ## Graph configuration documents (`GraphDefinition` load/save)

The on-disk JSON document is modelled shape-exactly: an optional field is
`none` when the key is absent.  `load_from_file` (after `json.load`)
becomes `loadGraphDefinition`; `save_to_file` (before `json.dump`) becomes
`saveGraphDefinition`.  Python's `'a.b'.split('.')` is transcribed as
`splitCh` on the character list. -/

/-- A `nodes` array entry of the JSON document. -/
structure JNode where
  id : String
  type : String
  config : Option ConfigMap := none
  position : Option (List Int) := none
  enabled : Option Bool := none
  deriving Repr, DecidableEq

/-- A `connections` array entry of the JSON document. -/
structure JConn where
  fromStr : String
  toStr : String
  enabled : Option Bool := none
  deriving Repr, DecidableEq

/-- The top-level JSON document. -/
structure JDoc where
  name : Option String := none
  version : Option String := none
  nodes : Option (List JNode) := none
  connections : Option (List JConn) := none
  metadata : Option ConfigMap := none
  deriving Repr, DecidableEq

/-- Python `str.split(sep)` for a one-character separator, on the
character list: `"a.b" -> ["a", "b"]`, `"a" -> ["a"]`,
`"a.b.c" -> ["a", "b", "c"]`. -/
def splitCh (sep : Char) : List Char → List (List Char)
  | [] => [[]]
  | c :: cs =>
    let r := splitCh sep cs
    if c = sep then [] :: r
    else
      match r with
      | [] => [[c]]
      | p :: ps => (c :: p) :: ps

/-- `Connection.from_dict`: split both endpoint strings on a dot and read
parts 0 and 1; fewer than two parts raise `IndexError` (`none`). -/
def connFromDict (c : JConn) : Option Connection :=
  match splitCh '.' c.fromStr.toList, splitCh '.' c.toStr.toList with
  | f0 :: f1 :: _, t0 :: t1 :: _ =>
    some { from_node := ⟨f0⟩, from_port := ⟨f1⟩,
           to_node := ⟨t0⟩, to_port := ⟨t1⟩,
           enabled := c.enabled.getD true }
  | _, _ => none

/-- `GraphDefinition.load_from_file` after `json.load`: defaults for
absent keys, node definitions and connections in document order. -/
def loadGraphDefinition (d : JDoc) : Option GraphDefinition := do
  let conns ← (d.connections.getD []).mapM connFromDict
  pure { name := d.name.getD "Unnamed"
         version := d.version.getD "1.0.0"
         nodes := (d.nodes.getD []).map (fun n =>
           { id := n.id, type := n.type, config := n.config.getD [],
             position := n.position.getD [0, 0],
             enabled := n.enabled.getD true })
         connections := conns
         metadata := d.metadata.getD [] }

/-- `NodeDefinition.to_dict`. -/
def saveNodeDefinition (n : NodeDefinition) : JNode :=
  { id := n.id, type := n.type, config := some n.config,
    position := some n.position, enabled := some n.enabled }

/-- `Connection.to_dict`: endpoints re-joined with a dot. -/
def saveConnection (c : Connection) : JConn :=
  { fromStr := c.from_node ++ "." ++ c.from_port,
    toStr := c.to_node ++ "." ++ c.to_port,
    enabled := some c.enabled }

/-- `GraphDefinition.to_dict` (the document `save_to_file` serialises):
every key is written explicitly. -/
def saveGraphDefinition (g : GraphDefinition) : JDoc :=
  { name := some g.name, version := some g.version,
    nodes := some (g.nodes.map saveNodeDefinition),
    connections := some (g.connections.map saveConnection),
    metadata := some g.metadata }

/-- A document is canonical when every optional key is explicit and each
connection endpoint splits on dots into exactly a node part and a port
part. -/
def JDocCanonical (d : JDoc) : Bool :=
  d.name.isSome && d.version.isSome && d.nodes.isSome && d.connections.isSome
    && d.metadata.isSome
    && (d.nodes.getD []).all (fun n =>
        n.config.isSome && n.position.isSome && n.enabled.isSome)
    && (d.connections.getD []).all (fun c =>
        c.enabled.isSome
          && (splitCh '.' c.fromStr.toList).length = 2
          && (splitCh '.' c.toStr.toList).length = 2)

/-! ## Helper lemmas: metrics -/

theorem add_execution_failure (m : NodeMetrics) (t : ℚ) :
    m.add_execution t false
      = { m with execution_count := m.execution_count + 1,
                 error_count := m.error_count + 1 } := by
  simp [NodeMetrics.add_execution]

theorem afterFailures_foldl (times : List ℚ) (m : NodeMetrics) :
    (times.foldl (fun m t => m.add_execution t false) m).execution_count
        = m.execution_count + times.length
    ∧ (times.foldl (fun m t => m.add_execution t false) m).error_count
        = m.error_count + times.length
    ∧ (times.foldl (fun m t => m.add_execution t false) m).total_execution_time
        = m.total_execution_time := by
  induction times generalizing m with
  | nil => simp
  | cons t ts ih =>
    simp only [List.foldl_cons, List.length_cons]
    rw [add_execution_failure]
    have h := ih { m with execution_count := m.execution_count + 1,
                          error_count := m.error_count + 1 }
    refine ⟨?_, ?_, ?_⟩
    · rw [h.1]; simp; omega
    · rw [h.2.1]; simp; omega
    · rw [h.2.2]

/-! ## Claim theorems -/

/-- C10: `NodeMetrics.get_average_time` is not total on reachable states.
Whenever some executions were recorded but all of them failed
(`execution_count = error_count > 0`), the guard `execution_count == 0`
does not fire and the division `total_execution_time /
(execution_count - error_count)` divides by zero (modelled as `none`);
such states are reachable because `add_execution(t, success=False)`
increments `execution_count` without adding runtime. -/
theorem C10_get_average_time_not_total :
    (∀ m : NodeMetrics, 0 < m.execution_count →
        m.execution_count = m.error_count → m.get_average_time = none)
    ∧ ∀ times : List ℚ, times ≠ [] →
        0 < (NodeMetrics.afterFailures times).execution_count
        ∧ (NodeMetrics.afterFailures times).execution_count
            = (NodeMetrics.afterFailures times).error_count := by
  constructor
  · intro m hpos hall
    simp only [NodeMetrics.get_average_time]
    rw [if_neg (by omega), if_pos (by omega)]
  · intro times hne
    have h := afterFailures_foldl times {}
    have hlen : 0 < times.length := List.length_pos.mpr hne
    unfold NodeMetrics.afterFailures
    refine ⟨?_, ?_⟩
    · rw [h.1]; simpa using hlen
    · rw [h.1, h.2.1]

/-- Witness for C10 at a concrete reachable state: one failed execution. -/
theorem C10_witness :
    (NodeMetrics.afterFailures [0]).get_average_time = none
    ∧ 0 < (NodeMetrics.afterFailures [0]).execution_count :=
  ⟨C10_get_average_time_not_total.1 (NodeMetrics.afterFailures [0])
      (C10_get_average_time_not_total.2 [0] (by simp)).1
      (C10_get_average_time_not_total.2 [0] (by simp)).2,
   (C10_get_average_time_not_total.2 [0] (by simp)).1⟩

/-- C6 (failing input): under the `retry` strategy with `max_retries = 4`
and a node failing on every attempt, the code sleeps
`0.1 * (attempt + 1)` — the linear sequence `[0.1, 0.2, 0.3]` — although
its own comment announces exponential backoff; the specified
`base_delay * 2 ^ attempt` sequence is `[0.1, 0.2, 0.4]`, differing at the
third retry.  On the final failure the error handler publishes
`node.error`, does not stop the executor, and does not re-enqueue the
packet (skip behaviour). -/
theorem C6_retry_backoff_failing_input :
    executeWithRetry "retry" 4 (fun _ => .failResult "boom")
      = { success := false, error := some "boom",
          sleeps := [(1:ℚ)/10 * 1, (1:ℚ)/10 * 2, (1:ℚ)/10 * 3] }
    ∧ [specBackoffDelay 0, specBackoffDelay 1, specBackoffDelay 2]
        = [(1:ℚ)/10 * 1, (1:ℚ)/10 * 2, (1:ℚ)/10 * 4]
    ∧ (executeWithRetry "retry" 4 (fun _ => .failResult "boom")).sleeps
        ≠ [specBackoffDelay 0, specBackoffDelay 1, specBackoffDelay 2]
    ∧ handleNodeError "retry"
        = { publishedNodeError := true, stopsExecutor := false,
            restartsNode := false, requeuesPacket := false } := by
  refine ⟨?_, ?_, ?_, ?_⟩
  · simp [executeWithRetry, executeWithRetryFrom]
    norm_num
  · simp [specBackoffDelay]
    norm_num
  · simp [executeWithRetry, executeWithRetryFrom, specBackoffDelay]
    norm_num
  · simp [handleNodeError]

/-! ## Helper lemmas: type registry -/

theorem is_compatible_symm (a b : DataTypeDesc) :
    a.is_compatible b = b.is_compatible a := by
  cases a <;> cases b <;>
    simp [DataTypeDesc.is_compatible, DataTypeDesc.sameClass]
  case imageType.imageType f _ _ g _ _ =>
    cases f <;> cases g <;> simp [eq_comm]

/-- C9: `TypeRegistry.check_compatibility` on the auto-registered built-in
registry returns `False` whenever either type name is unregistered, and it
is symmetric in its two arguments. -/
theorem C9_check_compatibility_unknown_and_symmetric :
    (∀ a b : String,
        builtinRegistry.get a = none ∨ builtinRegistry.get b = none →
        TypeRegistry.check_compatibility builtinRegistry a b = false)
    ∧ ∀ a b : String,
        TypeRegistry.check_compatibility builtinRegistry a b
          = TypeRegistry.check_compatibility builtinRegistry b a := by
  constructor
  · intro a b h
    unfold TypeRegistry.check_compatibility
    rcases h with h | h <;> rw [h]
    all_goals cases builtinRegistry.get a <;> rfl
  · intro a b
    unfold TypeRegistry.check_compatibility
    cases builtinRegistry.get a <;> cases builtinRegistry.get b <;>
      simp [is_compatible_symm]

/-- Witness for C9: an unregistered name is incompatible with everything,
and compatibility of two concrete built-in names is symmetric. -/
theorem C9_witness :
    TypeRegistry.check_compatibility builtinRegistry "Mystery" "Image" = false
    ∧ TypeRegistry.check_compatibility builtinRegistry "Image" "Number"
        = TypeRegistry.check_compatibility builtinRegistry "Number" "Image" :=
  ⟨C9_check_compatibility_unknown_and_symmetric.1 "Mystery" "Image"
      (Or.inl (by decide)),
   C9_check_compatibility_unknown_and_symmetric.2 "Image" "Number"⟩

/-! ## Helper lemmas: output routing -/

theorem lookup_cons' {β : Type} (k q : String) (v : β) (tl : List (String × β)) :
    List.lookup k ((q, v) :: tl) = if k = q then some v else List.lookup k tl := by
  by_cases h : k = q
  · simp [List.lookup_cons, h]
  · simp [List.lookup_cons, h, beq_false_of_ne h]

theorem lookup_insertGrouped (acc : List (String × List Connection))
    (c : Connection) (p : String) :
    List.lookup p (insertGrouped acc c)
      = if c.from_port = p then some (((List.lookup p acc).getD []) ++ [c])
        else List.lookup p acc := by
  induction acc with
  | nil =>
    simp only [insertGrouped, lookup_cons', List.lookup_nil]
    by_cases h : p = c.from_port
    · rw [if_pos h, if_pos h.symm]
      simp
    · rw [if_neg h, if_neg (fun hh => h hh.symm)]
  | cons hd tl ih =>
    obtain ⟨q, cs⟩ := hd
    simp only [insertGrouped]
    by_cases hq : q = c.from_port
    · rw [if_pos hq, lookup_cons']
      by_cases hp : p = q
      · subst hp
        rw [if_pos rfl, if_pos hq.symm, lookup_cons', if_pos rfl]
        simp
      · rw [if_neg hp, if_neg (fun h => hp (hq.trans h).symm),
          lookup_cons', if_neg hp]
    · rw [if_neg hq, lookup_cons']
      by_cases hp : p = q
      · rw [if_pos hp, if_neg (fun h => hq ((h.trans hp).symm)),
          lookup_cons', if_pos hp]
      · rw [if_neg hp, ih, lookup_cons', if_neg hp]

theorem lookup_foldl_insertGrouped (conns : List Connection)
    (acc : List (String × List Connection)) (p : String) :
    List.lookup p (conns.foldl insertGrouped acc)
      = if (List.lookup p acc) = none
            ∧ conns.filter (fun c => c.from_port = p) = []
        then none
        else some (((List.lookup p acc).getD [])
          ++ conns.filter (fun c => c.from_port = p)) := by
  induction conns generalizing acc with
  | nil =>
    cases h : List.lookup p acc <;> simp [h]
  | cons c rest ih =>
    simp only [List.foldl_cons, List.filter_cons]
    rw [ih (insertGrouped acc c), lookup_insertGrouped]
    by_cases hc : c.from_port = p
    · cases h : List.lookup p acc <;> simp [hc, h]
    · rw [if_neg hc]
      simp only [hc]
      simp

theorem groupByPort_lookup (conns : List Connection) (p : String) :
    List.lookup p (groupByPort conns)
      = if conns.filter (fun c => c.from_port = p) = [] then none
        else some (conns.filter (fun c => c.from_port = p)) := by
  unfold groupByPort
  rw [lookup_foldl_insertGrouped]
  simp

theorem key_insertGrouped (acc : List (String × List Connection))
    (c : Connection) (k : String) :
    k ∈ (insertGrouped acc c).map Prod.fst
      ↔ k ∈ acc.map Prod.fst ∨ k = c.from_port := by
  induction acc with
  | nil => simp [insertGrouped]
  | cons hd tl ih =>
    obtain ⟨q, cs⟩ := hd
    by_cases hq : q = c.from_port
    · subst hq
      simp [insertGrouped]
      tauto
    · simp [insertGrouped, hq, ih]
      tauto

theorem key_foldl_insertGrouped (conns : List Connection) :
    ∀ (acc : List (String × List Connection)) (k : String),
      k ∈ (conns.foldl insertGrouped acc).map Prod.fst →
      k ∈ acc.map Prod.fst ∨ ∃ c ∈ conns, c.from_port = k := by
  induction conns with
  | nil => intro acc k h; exact Or.inl h
  | cons c rest ih =>
    intro acc k h
    simp only [List.foldl_cons] at h
    rcases ih (insertGrouped acc c) k h with h' | h'
    · rcases (key_insertGrouped acc c k).mp h' with h'' | h''
      · exact Or.inl h''
      · exact Or.inr ⟨c, List.mem_cons_self c rest, h''.symm⟩
    · obtain ⟨c', hc', hcc⟩ := h'
      exact Or.inr ⟨c', List.mem_cons_of_mem c hc', hcc⟩

theorem key_groupByPort (conns : List Connection) (k : String)
    (h : k ∈ (groupByPort conns).map Prod.fst) :
    ∃ c ∈ conns, c.from_port = k := by
  rcases key_foldl_insertGrouped conns [] k h with h' | h'
  · simp at h'
  · exact h'

/-- Specification of the copy branches: connection number `i` onward each
receive a fresh packet whose single value carries the original payload
under a freshly allocated identity (`next`, `next + 1`, ...). -/
def copiesFrom (pid : String) (v : Val) :
    List Connection → Nat → Nat → List (String × DataPacket)
  | [], _, _ => []
  | c :: cs, i, next =>
    (c.to_node,
      { data := [(c.to_port, ⟨next, v.payload⟩)],
        packet_id := pid ++ "_branch_" ++ toString i,
        ref_count := 1 })
      :: copiesFrom pid v cs (i + 1) (next + 1)

theorem routeBranchFrom_pos (pid : String) (v : Val) :
    ∀ (cs : List Connection) (i next : Nat), 1 ≤ i →
      routeBranchFrom pid v cs i next
        = (copiesFrom pid v cs i next, next + cs.length) := by
  intro cs
  induction cs with
  | nil => intro i next _; simp [routeBranchFrom, copiesFrom]
  | cons c cs ih =>
    intro i next hi
    have hne : ¬ i = 0 := by omega
    simp only [routeBranchFrom, copiesFrom, hne, if_false, deepcopy]
    rw [ih (i + 1) (next + 1) (by omega)]
    simp only [List.length_cons, Prod.mk.injEq]
    exact ⟨trivial, by omega⟩

theorem routeBranchFrom_zero (pid : String) (v : Val) (c : Connection)
    (cs : List Connection) (next : Nat) :
    routeBranchFrom pid v (c :: cs) 0 next
      = ((c.to_node,
          { data := [(c.to_port, v)],
            packet_id := pid ++ "_branch_" ++ toString 0,
            ref_count := 1 })
          :: copiesFrom pid v cs 1 next,
         next + cs.length) := by
  have h0 : routeBranchFrom pid v (c :: cs) 0 next
      = ((c.to_node,
          { data := [(c.to_port, v)],
            packet_id := pid ++ "_branch_" ++ toString 0,
            ref_count := 1 })
          :: (routeBranchFrom pid v cs 1 next).1,
         (routeBranchFrom pid v cs 1 next).2) := by
    simp [routeBranchFrom]
  rw [h0, routeBranchFrom_pos pid v cs 1 next (by omega)]

theorem copiesFrom_fresh (pid : String) (v : Val) :
    ∀ (cs : List Connection) (i next : Nat),
      ∀ pr ∈ copiesFrom pid v cs i next,
        pr.2.ref_count = 1
        ∧ ∃ port addr, pr.2.data = [(port, ⟨addr, v.payload⟩)] ∧ next ≤ addr := by
  intro cs
  induction cs with
  | nil => intro i next pr hpr; simp [copiesFrom] at hpr
  | cons c cs ih =>
    intro i next pr hpr
    simp only [copiesFrom, List.mem_cons] at hpr
    rcases hpr with h | h
    · subst h
      exact ⟨rfl, c.to_port, next, rfl, le_refl next⟩
    · obtain ⟨h1, port, addr, h2, h3⟩ := ih (i + 1) (next + 1) pr h
      exact ⟨h1, port, addr, h2, by omega⟩

theorem pushOutputs_skip_port (node : String) (conns : List Connection)
    (outputs : List (String × Val)) (pid : String) (next : Nat)
    (p : String) (v : Val)
    (hp : (conns.filter (fun c => c.from_port = p)) = []) :
    pushOutputs node conns ((p, v) :: outputs) pid next
      = pushOutputs node conns outputs pid next := by
  unfold pushOutputs
  have hkeys : ∀ pr ∈ groupByPort conns, pr.1 ≠ p := by
    intro pr hpr hcontra
    obtain ⟨c, hc, hcp⟩ := key_groupByPort conns pr.1
      (List.mem_map_of_mem Prod.fst hpr)
    have : c ∈ conns.filter (fun c => c.from_port = p) := by
      rw [List.mem_filter]
      exact ⟨hc, by simp [hcp, hcontra]⟩
    rw [hp] at this
    simp at this
  suffices h : ∀ (groups : List (String × List Connection))
      (acc : PushTrace × Nat), (∀ pr ∈ groups, pr.1 ≠ p) →
      groups.foldl
        (fun acc pr =>
          match (List.lookup pr.1 ((p, v) :: outputs) : Option Val) with
          | none => acc
          | some w =>
            let tr := routeGroup node pid pr.1 pr.2 w acc.2
            ({ events := acc.1.events ++ tr.1.events,
               pushes := acc.1.pushes ++ tr.1.pushes }, tr.2)) acc
      = groups.foldl
        (fun acc pr =>
          match (List.lookup pr.1 outputs : Option Val) with
          | none => acc
          | some w =>
            let tr := routeGroup node pid pr.1 pr.2 w acc.2
            ({ events := acc.1.events ++ tr.1.events,
               pushes := acc.1.pushes ++ tr.1.pushes }, tr.2)) acc by
    exact h (groupByPort conns) _ hkeys
  intro groups
  induction groups with
  | nil => intro acc _; rfl
  | cons pr rest ih =>
    intro acc hkeys
    simp only [List.foldl_cons]
    rw [lookup_cons', if_neg (hkeys pr (List.mem_cons_self pr rest))]
    exact ih _ (fun q hq => hkeys q (List.mem_cons_of_mem pr hq))

theorem rc_routeBranchFrom (pid : String) (v : Val) :
    ∀ (cs : List Connection) (i next : Nat),
      ∀ pr ∈ (routeBranchFrom pid v cs i next).1, pr.2.ref_count = 1 := by
  intro cs
  induction cs with
  | nil => intro i next pr hpr; simp [routeBranchFrom] at hpr
  | cons c cs ih =>
    intro i next pr hpr
    simp only [routeBranchFrom, List.mem_cons] at hpr
    rcases hpr with h | h
    · subst h; rfl
    · exact ih (i + 1) _ pr h

theorem rc_routeGroup (node pid p : String) (pconns : List Connection)
    (v : Val) (next : Nat) :
    ∀ pr ∈ (routeGroup node pid p pconns v next).1.pushes,
      pr.2.ref_count = 1 := by
  intro pr hpr
  unfold routeGroup at hpr
  by_cases h : pconns.length > 1
  · rw [if_pos h] at hpr
    exact rc_routeBranchFrom pid v pconns 0 next pr hpr
  · rw [if_neg h] at hpr
    match pconns with
    | [c] =>
      simp at hpr
      rw [hpr]
    | [] => simp at hpr
    | c1 :: c2 :: rest => simp at h

theorem rc_pushOutputs (node : String) (conns : List Connection)
    (outputs : List (String × Val)) (pid : String) (next : Nat) :
    ∀ pr ∈ (pushOutputs node conns outputs pid next).1.pushes,
      pr.2.ref_count = 1 := by
  unfold pushOutputs
  suffices h : ∀ (groups : List (String × List Connection))
      (acc : PushTrace × Nat), (∀ pr ∈ acc.1.pushes, pr.2.ref_count = 1) →
      ∀ pr ∈ (groups.foldl
        (fun acc pr =>
          match (List.lookup pr.1 outputs : Option Val) with
          | none => acc
          | some w =>
            let tr := routeGroup node pid pr.1 pr.2 w acc.2
            ({ events := acc.1.events ++ tr.1.events,
               pushes := acc.1.pushes ++ tr.1.pushes }, tr.2)) acc).1.pushes,
        pr.2.ref_count = 1 by
    exact h (groupByPort conns) _ (by intro pr hpr; simp at hpr)
  intro groups
  induction groups with
  | nil => intro acc hacc; exact hacc
  | cons g rest ih =>
    intro acc hacc
    simp only [List.foldl_cons]
    cases hl : (List.lookup g.1 outputs : Option Val) with
    | none => simp only [hl]; exact ih acc hacc
    | some w =>
      simp only [hl]
      refine ih _ ?_
      intro pr hpr
      simp only [List.mem_append] at hpr
      rcases hpr with h | h
      · exact hacc pr h
      · exact rc_routeGroup node pid g.1 g.2 w acc.2 pr h

/-- C3: routing an output port's value is determined by the number of
enabled outgoing edges of that port.  (i) the connection group built for a
port is exactly the enabled connections leaving it; (ii) with zero edges
the port's value is discarded — routing is unchanged by its presence;
(iii) with exactly one edge the original value is moved unchanged (same
identity, no allocation) into a fresh packet addressed to the one
destination, and no branch event is published; (iv) with two or more edges
exactly one `data.branch` event carrying the branch count is published,
the first destination receives the original value and every other
destination receives a deep copy — same payload under a freshly allocated
identity at or above the allocation cursor. -/
theorem C3_routing_by_edge_count :
    (∀ (g : Graph) (node p : String),
      List.lookup p (groupByPort (g.get_connections_from node))
        = if (g.get_connections_from node).filter (fun c => c.from_port = p) = []
          then none
          else some ((g.get_connections_from node).filter (fun c => c.from_port = p)))
    ∧ (∀ (g : Graph) (node p pid : String) (v : Val)
        (outputs : List (String × Val)) (next : Nat),
        (g.get_connections_from node).filter (fun c => c.from_port = p) = [] →
        pushOutputsToDownstream g node ((p, v) :: outputs) pid next
          = pushOutputsToDownstream g node outputs pid next)
    ∧ (∀ (node pid p : String) (c : Connection) (v : Val) (next : Nat),
        routeGroup node pid p [c] v next
          = ({ events := [],
               pushes := [(c.to_node,
                 { data := [(c.to_port, v)], packet_id := pid, ref_count := 1 })] },
             next))
    ∧ (∀ (node pid p : String) (c : Connection) (cs : List Connection)
        (v : Val) (next : Nat), cs ≠ [] →
        routeGroup node pid p (c :: cs) v next
          = ({ events := [⟨node, p, (c :: cs).length⟩],
               pushes := (c.to_node,
                   { data := [(c.to_port, v)],
                     packet_id := pid ++ "_branch_" ++ toString 0,
                     ref_count := 1 })
                 :: copiesFrom pid v cs 1 next },
             next + cs.length))
    ∧ (∀ (pid : String) (v : Val) (cs : List Connection) (i next : Nat),
        ∀ pr ∈ copiesFrom pid v cs i next,
          pr.2.ref_count = 1
          ∧ ∃ port addr, pr.2.data = [(port, ⟨addr, v.payload⟩)] ∧ next ≤ addr) := by
  refine ⟨?_, ?_, ?_, ?_, ?_⟩
  · intro g node p
    exact groupByPort_lookup (g.get_connections_from node) p
  · intro g node p pid v outputs next hp
    exact pushOutputs_skip_port node (g.get_connections_from node)
      outputs pid next p v hp
  · intro node pid p c v next
    rfl
  · intro node pid p c cs v next hcs
    have hlen : (c :: cs).length > 1 := by
      cases cs with
      | nil => exact absurd rfl hcs
      | cons _ _ => simp
    unfold routeGroup
    rw [if_pos hlen, routeBranchFrom_zero]
  · intro pid v cs i next
    exact copiesFrom_fresh pid v cs i next

/-- Witness for C3 at concrete inputs: a two-edge fan-out from port `out`
(branch event with count 2, original value to the first destination, a
fresh-identity copy to the second), and discarding on a graph with no
outgoing connections. -/
theorem C3_witness :
    routeGroup "S" "p1" "out"
        [⟨"S", "out", "A", "in", true⟩, ⟨"S", "out", "B", "in", true⟩]
        ⟨0, 7⟩ 100
      = ({ events := [⟨"S", "out", 2⟩],
           pushes := [("A", { data := [("in", ⟨0, 7⟩)],
                              packet_id := "p1_branch_0", ref_count := 1 }),
                      ("B", { data := [("in", ⟨100, 7⟩)],
                              packet_id := "p1_branch_1", ref_count := 1 })] },
         101)
    ∧ pushOutputsToDownstream { definition := { name := "g", version := "1" } }
        "S" [("out", ⟨0, 7⟩)] "p1" 100
      = pushOutputsToDownstream { definition := { name := "g", version := "1" } }
        "S" [] "p1" 100 := by
  constructor
  · rw [C3_routing_by_edge_count.2.2.2.1 "S" "p1" "out"
      ⟨"S", "out", "A", "in", true⟩ [⟨"S", "out", "B", "in", true⟩]
      ⟨0, 7⟩ 100 (by decide)]
    decide
  · exact C3_routing_by_edge_count.2.1
      { definition := { name := "g", version := "1" } }
      "S" "out" "p1" ⟨0, 7⟩ [] 100 (by decide)

/-- Counterexample to C4: routing one output value over a two-edge branch
(branch count 2).  Every enqueued packet is created with `ref_count = 1`
and the routing never touches the reference count of the packet being
processed — the task loop decrements it once to 0 afterwards.  No
reference count is ever set to the branch count 2. -/
theorem C4_counterexample :
    pushOutputs "S"
        [⟨"S", "out", "A", "in", true⟩, ⟨"S", "out", "B", "in", true⟩]
        [("out", ⟨0, 7⟩)] "p1" 100
      = ({ events := [⟨"S", "out", 2⟩],
           pushes := [("A", { data := [("in", ⟨0, 7⟩)],
                              packet_id := "p1_branch_0", ref_count := 1 }),
                      ("B", { data := [("in", ⟨100, 7⟩)],
                              packet_id := "p1_branch_1", ref_count := 1 })] },
         101)
    ∧ (DataPacket.decrement_ref
        { data := [("out", ⟨0, 7⟩)], packet_id := "p1", ref_count := 1 }).ref_count
        = 0
    ∧ (1 : Int) ≠ 2 ∧ (0 : Int) ≠ 2 := by
  decide

/-- C4 (amended): after routing, every enqueued packet — branch copies and
the packet carrying the original value alike — has reference count 1; the
reference count of the input packet is not set to the branch count, it is
simply decremented by one when the task loop finishes with it. -/
theorem C4_ref_counts_after_routing (node pid : String)
    (conns : List Connection) (outputs : List (String × Val)) (next : Nat) :
    (∀ pr ∈ (pushOutputs node conns outputs pid next).1.pushes,
      pr.2.ref_count = 1)
    ∧ ∀ p : DataPacket, p.decrement_ref.ref_count = p.ref_count - 1 :=
  ⟨rc_pushOutputs node conns outputs pid next, fun _ => rfl⟩

/-- Witness for C4's amended statement at the concrete two-edge branch. -/
theorem C4_witness :
    ((pushOutputs "S"
        [⟨"S", "out", "A", "in", true⟩, ⟨"S", "out", "B", "in", true⟩]
        [("out", ⟨0, 7⟩)] "p1" 100).1.pushes.map
          (fun pr => pr.2.ref_count)).all (fun r => r == 1) = true := by
  have h := (C4_ref_counts_after_routing "S" "p1"
    [⟨"S", "out", "A", "in", true⟩, ⟨"S", "out", "B", "in", true⟩]
    [("out", ⟨0, 7⟩)] 100).1
  rw [List.all_eq_true]
  intro r hr
  rw [List.mem_map] at hr
  obtain ⟨pr, hpr, hrr⟩ := hr
  rw [beq_iff_eq]
  rw [← hrr]
  exact h pr hpr

/-! ## Helper lemmas: document round trip -/

/-- The inverse of `splitCh`: joining the parts with the separator. -/
def joinCh (sep : Char) : List (List Char) → List Char
  | [] => []
  | [p] => p
  | p :: ps => p ++ sep :: joinCh sep ps

theorem splitCh_ne_nil (sep : Char) (l : List Char) : splitCh sep l ≠ [] := by
  cases l with
  | nil => simp [splitCh]
  | cons c cs =>
    simp only [splitCh]
    by_cases h : c = sep
    · simp [h]
    · cases splitCh sep cs <;> simp [h]

theorem joinCh_splitCh (sep : Char) (l : List Char) :
    joinCh sep (splitCh sep l) = l := by
  induction l with
  | nil => rfl
  | cons c cs ih =>
    obtain ⟨p, ps, hps⟩ := List.exists_cons_of_ne_nil (splitCh_ne_nil sep cs)
    simp only [splitCh]
    by_cases h : c = sep
    · rw [if_pos h, hps]
      show joinCh sep ([] :: p :: ps) = c :: cs
      have : joinCh sep ([] :: p :: ps) = sep :: joinCh sep (p :: ps) := rfl
      rw [this, ← hps, ih, h]
    · rw [if_neg h, hps]
      cases ps with
      | nil =>
        show c :: p = c :: cs
        rw [← ih, hps]
        rfl
      | cons q qs =>
        show (c :: p) ++ sep :: joinCh sep (q :: qs) = c :: cs
        rw [← ih, hps]
        rfl

theorem string_of_two_parts (s : String) (a b : List Char)
    (h : splitCh '.' s.toList = [a, b]) :
    (String.mk a ++ "." ++ String.mk b : String) = s := by
  apply String.ext
  have hj := joinCh_splitCh '.' s.toList
  rw [h] at hj
  have : joinCh '.' [a, b] = a ++ '.' :: b := rfl
  rw [this] at hj
  simp only [String.data_append]
  simpa using hj

theorem conn_roundtrip (c : JConn) (e : Bool) (he : c.enabled = some e)
    (hf : (splitCh '.' c.fromStr.toList).length = 2)
    (ht : (splitCh '.' c.toStr.toList).length = 2) :
    ∃ conn, connFromDict c = some conn ∧ saveConnection conn = c := by
  obtain ⟨f0, f1, hfl⟩ := List.length_eq_two.mp hf
  obtain ⟨t0, t1, htl⟩ := List.length_eq_two.mp ht
  have hcf : connFromDict c
      = some { from_node := ⟨f0⟩, from_port := ⟨f1⟩,
               to_node := ⟨t0⟩, to_port := ⟨t1⟩,
               enabled := c.enabled.getD true } := by
    unfold connFromDict
    rw [hfl, htl]
  refine ⟨_, hcf, ?_⟩
  unfold saveConnection
  obtain ⟨cf, ct, cen⟩ := c
  simp only at hfl htl he ⊢
  subst he
  simp only [Option.getD_some]
  rw [string_of_two_parts cf f0 f1 hfl, string_of_two_parts ct t0 t1 htl]

theorem conns_roundtrip (cs : List JConn)
    (h : ∀ c ∈ cs, c.enabled.isSome = true
      ∧ (splitCh '.' c.fromStr.toList).length = 2
      ∧ (splitCh '.' c.toStr.toList).length = 2) :
    ∃ conns, cs.mapM connFromDict = some conns
      ∧ conns.map saveConnection = cs := by
  induction cs with
  | nil => exact ⟨[], rfl, rfl⟩
  | cons c rest ih =>
    obtain ⟨he, hf, ht⟩ := h c (List.mem_cons_self c rest)
    obtain ⟨e, hee⟩ := Option.isSome_iff_exists.mp he
    obtain ⟨conn, hc1, hc2⟩ := conn_roundtrip c e hee hf ht
    obtain ⟨conns, hr1, hr2⟩ := ih (fun c' hc' => h c' (List.mem_cons_of_mem c hc'))
    refine ⟨conn :: conns, ?_, ?_⟩
    · rw [List.mapM_cons, hc1, hr1]
      rfl
    · simp [hc2, hr2]

theorem node_roundtrip (n : JNode) (hc : n.config.isSome = true)
    (hp : n.position.isSome = true) (he : n.enabled.isSome = true) :
    saveNodeDefinition
        { id := n.id, type := n.type, config := n.config.getD [],
          position := n.position.getD [0, 2 - 2],
          enabled := n.enabled.getD true }
      = n := by
  obtain ⟨i, t, cfg, pos, en⟩ := n
  obtain ⟨cv, hcv⟩ := Option.isSome_iff_exists.mp hc
  obtain ⟨pv, hpv⟩ := Option.isSome_iff_exists.mp hp
  obtain ⟨ev, hev⟩ := Option.isSome_iff_exists.mp he
  simp only at hcv hpv hev
  subst hcv hpv hev
  rfl

/-- Counterexample to C8: a well-formed document in which one node omits
the optional `enabled` key.  `load` succeeds, but saving writes the key
back explicitly (`enabled: true`), so `save(load(x))` is not structurally
equal to `x`. -/
theorem C8_counterexample :
    (loadGraphDefinition
        { name := some "G", version := some "1",
          nodes := some [{ id := "n", type := "t", config := some [],
                           position := some [0, 0] }],
          connections := some [], metadata := some [] }).map saveGraphDefinition
      ≠ some
        { name := some "G", version := some "1",
          nodes := some [{ id := "n", type := "t", config := some [],
                           position := some [0, 0] }],
          connections := some [], metadata := some [] }
    ∧ (loadGraphDefinition
        { name := some "G", version := some "1",
          nodes := some [{ id := "n", type := "t", config := some [],
                           position := some [0, 0] }],
          connections := some [], metadata := some [] }).isSome = true := by
  decide

/-- C8 (amended): `save(load(x))` reproduces `x` structurally — node and
connection order included — for every canonical document: one with every
optional key explicit and every connection endpoint of the form
`node.port` with a single dot.  For non-canonical documents `save ∘ load`
normalises: it fills in the defaults (see the counterexample). -/
theorem C8_roundtrip_canonical (d : JDoc) (h : JDocCanonical d = true) :
    (loadGraphDefinition d).map saveGraphDefinition = some d := by
  obtain ⟨dn, dv, dns, dcs, dmd⟩ := d
  simp only [JDocCanonical, Bool.and_eq_true, List.all_eq_true] at h
  obtain ⟨⟨⟨⟨⟨⟨hn, hv⟩, hns⟩, hcs⟩, hmd⟩, hnodes⟩, hconns⟩ := h
  obtain ⟨nv, hnv⟩ := Option.isSome_iff_exists.mp hn
  obtain ⟨vv, hvv⟩ := Option.isSome_iff_exists.mp hv
  obtain ⟨nsv, hnsv⟩ := Option.isSome_iff_exists.mp hns
  obtain ⟨csv, hcsv⟩ := Option.isSome_iff_exists.mp hcs
  obtain ⟨mdv, hmdv⟩ := Option.isSome_iff_exists.mp hmd
  subst hnv hvv hnsv hcsv hmdv
  try simp only [Option.getD_some] at hnodes
  try simp only [Option.getD_some] at hconns
  obtain ⟨conns, hc1, hc2⟩ := conns_roundtrip csv (by
    intro c hc
    have := hconns c hc
    simp only [Bool.and_eq_true, decide_eq_true_eq] at this
    exact ⟨this.1.1, this.1.2, this.2⟩)
  have hnodes' : (nsv.map (fun n =>
      ({ id := n.id, type := n.type, config := n.config.getD [],
         position := n.position.getD [0, 0],
         enabled := n.enabled.getD true } : NodeDefinition))).map saveNodeDefinition
      = nsv := by
    rw [List.map_map]
    have : ∀ n ∈ nsv, (saveNodeDefinition ∘ fun n =>
        ({ id := n.id, type := n.type, config := n.config.getD [],
           position := n.position.getD [0, 0],
           enabled := n.enabled.getD true } : NodeDefinition)) n = id n := by
      intro n hn
      have hh := hnodes n hn
      simpa using node_roundtrip n hh.1.1 hh.1.2 hh.2
    rw [List.map_congr_left this, List.map_id]
  unfold loadGraphDefinition
  simp only [Option.getD_some, hc1, Option.bind_eq_bind, Option.some_bind]
  unfold saveGraphDefinition
  simp only [Option.pure_def, Option.map_some, Option.some.injEq]
  simp [hnodes', hc2]

/-- Witness for C8's amended statement at a concrete canonical document. -/
theorem C8_witness :
    (loadGraphDefinition
        { name := some "G", version := some "1",
          nodes := some [{ id := "n", type := "t", config := some [],
                           position := some [0, 0], enabled := some true }],
          connections := some [⟨"n.out", "m.in", some true⟩],
          metadata := some [] }).map saveGraphDefinition
      = some
        { name := some "G", version := some "1",
          nodes := some [{ id := "n", type := "t", config := some [],
                           position := some [0, 0], enabled := some true }],
          connections := some [⟨"n.out", "m.in", some true⟩],
          metadata := some [] } :=
  C8_roundtrip_canonical _ (by decide)

/-! ## Helper lemmas: event bus ordering -/

theorem syncIndices_bound (pattern : String) :
    ∀ (l : List Event) (n : Nat) (i : Nat),
      i ∈ ((l.enumFrom n).flatMap
        (fun pr => List.replicate (dispatchCount pattern pr.2.topic) pr)).map
          Prod.fst →
      n ≤ i := by
  intro l
  induction l with
  | nil => intro n i h; simp at h
  | cons e l ih =>
    intro n i h
    simp only [List.enumFrom_cons, List.flatMap_cons, List.map_append,
      List.map_replicate, List.mem_append] at h
    rcases h with h | h
    · rw [List.eq_of_mem_replicate h]
    · exact Nat.le_of_succ_le (ih (n + 1) i (by simpa using h))

theorem syncIndices_sorted (pattern : String) :
    ∀ (l : List Event) (n : Nat),
      (((l.enumFrom n).flatMap
        (fun pr => List.replicate (dispatchCount pattern pr.2.topic) pr)).map
          Prod.fst).Pairwise (· ≤ ·) := by
  intro l
  induction l with
  | nil => intro n; simp
  | cons e l ih =>
    intro n
    simp only [List.enumFrom_cons, List.flatMap_cons, List.map_append,
      List.map_replicate]
    rw [List.pairwise_append]
    refine ⟨by simp [List.pairwise_replicate], ih (n + 1), ?_⟩
    intro a ha b hb
    rw [List.eq_of_mem_replicate ha]
    exact Nat.le_of_succ_le (syncIndices_bound pattern l (n + 1) b hb)

/-- Counterexample to C7: in async mode the bus queues events on a
priority heap ordered by `Event.__lt__`.  A publisher emits a NORMAL
event, then a HIGH event on topics both matched by a `node.*` subscriber:
the worker drains the HIGH event first, so delivery order is not
publication order. -/
theorem C7_counterexample :
    asyncDeliveryOrder
        [⟨"node.complete", "first", "pub", 2⟩, ⟨"node.error", "second", "pub", 3⟩]
      = [⟨"node.error", "second", "pub", 3⟩, ⟨"node.complete", "first", "pub", 2⟩]
    ∧ ([(⟨"node.error", "second", "pub", 3⟩ : Event),
        ⟨"node.complete", "first", "pub", 2⟩]
        ≠ [(⟨"node.complete", "first", "pub", 2⟩ : Event),
           ⟨"node.error", "second", "pub", 3⟩])
    ∧ dispatchCount "node.*" "node.complete" = 1
    ∧ dispatchCount "node.*" "node.error" = 1 := by
  decide

/-- C7 (amended): in sync mode `publish` dispatches inline, so each
subscriber receives the matching events in publication order — the
publication indices of the delivered sequence are sorted.  In async mode
delivery follows the priority heap, which can deliver a later-published
higher-priority event before an earlier lower-priority one from the same
publisher, as the concrete NORMAL/HIGH pair shows. -/
theorem C7_sync_fifo_async_priority :
    (∀ (pattern : String) (published : List Event),
      ((syncRun pattern published).map Prod.fst).Pairwise (· ≤ ·))
    ∧ asyncDeliveryOrder
        [⟨"node.complete", "first", "pub", 2⟩, ⟨"node.error", "second", "pub", 3⟩]
      = [⟨"node.error", "second", "pub", 3⟩,
         ⟨"node.complete", "first", "pub", 2⟩] := by
  constructor
  · intro pattern published
    unfold syncRun
    rw [List.enum_eq_enumFrom]
    exact syncIndices_sorted pattern published 0
  · decide

/-! ## Cycle detection: correctness of the depth-first search

`adjStep adj x y` is one directed edge of the adjacency map; a cycle is a
nonempty path from some node back to itself.  The soundness direction
shows a `True` answer of the DFS exhibits a cycle; the completeness
direction shows a `False` answer (with enough fuel) certifies that no
node of the search universe lies on a cycle. -/

/-- One edge of the adjacency map. -/
def adjStep (adj : AdjMap) (x y : String) : Prop :=
  y ∈ adj.getD x

/-- The adjacency map contains a directed cycle. -/
def HasCycleIn (adj : AdjMap) : Prop :=
  ∃ u, Relation.TransGen (adjStep adj) u u

/-- The recursion stack read bottom-up is a path: each entry is a
neighbour of the entry below it. -/
def StackChain (adj : AdjMap) : List String → Prop
  | [] => True
  | [_] => True
  | a :: b :: l => a ∈ adj.getD b ∧ StackChain adj (b :: l)

theorem chain_reach (adj : AdjMap) :
    ∀ (s : List String) (x n : String), StackChain adj (x :: s) →
      n ∈ x :: s → Relation.ReflTransGen (adjStep adj) n x := by
  intro s
  induction s with
  | nil =>
    intro x n _ hn
    simp at hn
    exact hn ▸ Relation.ReflTransGen.refl
  | cons y s ih =>
    intro x n hchain hn
    obtain ⟨hedge, hrest⟩ := hchain
    rcases List.mem_cons.mp hn with h | h
    · exact h ▸ Relation.ReflTransGen.refl
    · exact Relation.ReflTransGen.tail (ih y n hrest h) hedge

theorem dfsLoop_true_sound_of_visit (adj : AdjMap) (fuel : Nat)
    (hP : ∀ (u : String) (stack visited v' : List String),
      StackChain adj (u :: stack) →
      dfsVisit adj fuel u stack visited = (true, v') → HasCycleIn adj) :
    ∀ (ns : List String) (u : String) (s visited v' : List String),
      StackChain adj (u :: s) → (∀ n ∈ ns, n ∈ adj.getD u) →
      dfsLoop adj fuel ns (u :: s) visited = (true, v') → HasCycleIn adj := by
  intro ns
  induction ns with
  | nil => intro u s visited v' _ _ h; simp [dfsLoop] at h
  | cons n ns ih =>
    intro u s visited v' hchain hns h
    rw [dfsLoop] at h
    by_cases hv : n ∈ visited
    · rw [if_pos hv] at h
      by_cases hs : n ∈ u :: s
      · have hreach := chain_reach adj s u n hchain hs
        exact ⟨n, Relation.TransGen.tail' hreach
          (hns n (List.mem_cons_self n ns))⟩
      · rw [if_neg hs] at h
        exact ih u s visited v' hchain
          (fun m hm => hns m (List.mem_cons_of_mem n hm)) h
    · rw [if_neg hv] at h
      cases hvis : dfsVisit adj fuel n (u :: s) visited with
      | mk b v₁ =>
        cases b with
        | true =>
          exact hP n (u :: s) visited v₁
            ⟨hns n (List.mem_cons_self n ns), hchain⟩ hvis
        | false =>
          rw [hvis] at h
          exact ih u s v₁ v' hchain
            (fun m hm => hns m (List.mem_cons_of_mem n hm)) h

theorem dfsVisit_true_sound (adj : AdjMap) :
    ∀ (fuel : Nat) (u : String) (stack visited v' : List String),
      StackChain adj (u :: stack) →
      dfsVisit adj fuel u stack visited = (true, v') → HasCycleIn adj := by
  intro fuel
  induction fuel with
  | zero => intro u stack visited v' _ h; simp [dfsVisit] at h
  | succ f ih =>
    intro u stack visited v' hchain h
    rw [dfsVisit] at h
    exact dfsLoop_true_sound_of_visit adj f ih (adj.getD u) u stack
      (u :: visited) v' hchain (fun n hn => hn) h

theorem dfsTop_true_sound (adj : AdjMap) (fuel : Nat) :
    ∀ (starts visited : List String),
      dfsTop adj fuel starts visited = true → HasCycleIn adj := by
  intro starts
  induction starts with
  | nil => intro visited h; simp [dfsTop] at h
  | cons s ss ih =>
    intro visited h
    rw [dfsTop] at h
    by_cases hv : s ∈ visited
    · rw [if_pos hv] at h
      exact ih visited h
    · rw [if_neg hv] at h
      cases hvis : dfsVisit adj fuel s [] visited with
      | mk b v₁ =>
        cases b with
        | true => exact dfsVisit_true_sound adj fuel s [] visited v₁ trivial hvis
        | false =>
          rw [hvis] at h
          exact ih v₁ h

/-- How many universe nodes the search has not visited yet: the measure
that bounds the DFS recursion depth. -/
def unvisCount (univ visited : List String) : Nat :=
  (univ.filter (fun x => decide (¬ x ∈ visited))).length

theorem unvisCount_mono (univ visited visited' : List String)
    (hsub : visited ⊆ visited') :
    unvisCount univ visited' ≤ unvisCount univ visited := by
  induction univ with
  | nil => simp [unvisCount]
  | cons x xs ih =>
    simp only [unvisCount, List.filter_cons] at ih ⊢
    by_cases h' : x ∈ visited'
    · rw [if_neg (by simp [h'])]
      by_cases h : x ∈ visited
      · rw [if_neg (by simp [h])]
        exact ih
      · rw [if_pos (by simp [h])]
        exact Nat.le_succ_of_le ih
    · have h : ¬ x ∈ visited := fun hx => h' (hsub hx)
      rw [if_pos (by simp [h']), if_pos (by simp [h])]
      simpa using ih

theorem unvisCount_strict (univ visited visited' : List String) (u : String)
    (hu : u ∈ univ) (hnv : ¬ u ∈ visited) (hsub : visited ⊆ visited')
    (hv' : u ∈ visited') :
    unvisCount univ visited' < unvisCount univ visited := by
  induction univ with
  | nil => simp at hu
  | cons x xs ih =>
    simp only [unvisCount, List.filter_cons]
    by_cases hxu : x = u
    · subst hxu
      rw [if_neg (by simp [hv']), if_pos (by simp [hnv])]
      exact Nat.lt_succ_of_le (unvisCount_mono xs visited visited' hsub)
    · have hu' : u ∈ xs := by
        rcases List.mem_cons.mp hu with h | h
        · exact absurd h.symm hxu
        · exact h
      by_cases h' : x ∈ visited'
      · rw [if_neg (by simp [h'])]
        by_cases h : x ∈ visited
        · rw [if_neg (by simp [h])]
          exact ih hu'
        · rw [if_pos (by simp [h])]
          exact Nat.lt_succ_of_lt (ih hu')
      · have h : ¬ x ∈ visited := fun hx => h' (hsub hx)
        rw [if_pos (by simp [h']), if_pos (by simp [h])]
        exact Nat.succ_lt_succ (ih hu')

/-- The invariant the DFS maintains: the recursion stack is visited, and
every finished ("black") node — visited but no longer on the stack — has
all its edges into black nodes and lies on no cycle. -/
structure DfsInv (adj : AdjMap) (stack visited : List String) : Prop where
  stackSub : ∀ x ∈ stack, x ∈ visited
  closed : ∀ b ∈ visited, b ∉ stack → ∀ n ∈ adj.getD b, n ∈ visited ∧ n ∉ stack
  acyc : ∀ b ∈ visited, b ∉ stack → ¬ Relation.TransGen (adjStep adj) b b

theorem reflTransGen_stays (adj : AdjMap) (S : String → Prop)
    (hS : ∀ b, S b → ∀ n ∈ adj.getD b, S n) :
    ∀ x y, Relation.ReflTransGen (adjStep adj) x y → S x → S y := by
  intro x y h
  induction h with
  | refl => exact id
  | tail _ hstep ih => exact fun hx => hS _ (ih hx) _ hstep

/-- What a `False` answer of `dfsVisit` certifies, at a given fuel. -/
def VisitFalseOK (adj : AdjMap) (univ : List String) (fuel : Nat) : Prop :=
  ∀ (u : String) (stack visited v' : List String),
    unvisCount univ visited < fuel →
    (∀ x : String, ∀ y ∈ adj.getD x, y ∈ univ) →
    u ∈ univ → u ∉ visited → visited ⊆ univ →
    DfsInv adj stack visited →
    dfsVisit adj fuel u stack visited = (false, v') →
    visited ⊆ v' ∧ u ∈ v' ∧ v' ⊆ univ ∧ DfsInv adj stack v'

/-- What a `False` answer of `dfsLoop` certifies, at a given fuel. -/
def LoopFalseOK (adj : AdjMap) (univ : List String) (fuel : Nat) : Prop :=
  ∀ (ns : List String) (u : String) (s visited v' : List String),
    unvisCount univ visited < fuel →
    (∀ x : String, ∀ y ∈ adj.getD x, y ∈ univ) →
    (∀ n ∈ ns, n ∈ adj.getD u) →
    visited ⊆ univ →
    DfsInv adj (u :: s) visited →
    dfsLoop adj fuel ns (u :: s) visited = (false, v') →
    visited ⊆ v' ∧ v' ⊆ univ ∧ DfsInv adj (u :: s) v'
      ∧ ∀ n ∈ ns, n ∈ v' ∧ n ∉ u :: s

theorem loop_false_of_visit (adj : AdjMap) (univ : List String) (fuel : Nat)
    (hP : VisitFalseOK adj univ fuel) : LoopFalseOK adj univ fuel := by
  intro ns
  induction ns with
  | nil =>
    intro u s visited v' _ _ _ hsub inv h
    rw [dfsLoop] at h
    cases h
    exact ⟨fun _ hx => hx, hsub, inv, by simp⟩
  | cons n ns ih =>
    intro u s visited v' hFuel hclosure hns hsub inv h
    rw [dfsLoop] at h
    have hnu : n ∈ adj.getD u := hns n (List.mem_cons_self n ns)
    by_cases hv : n ∈ visited
    · rw [if_pos hv] at h
      by_cases hs : n ∈ u :: s
      · rw [if_pos hs] at h
        simp at h
      · rw [if_neg hs] at h
        obtain ⟨h1, h2, inv', hrest⟩ := ih u s visited v' hFuel hclosure
          (fun m hm => hns m (List.mem_cons_of_mem n hm)) hsub inv h
        refine ⟨h1, h2, inv', ?_⟩
        intro m hm
        rcases List.mem_cons.mp hm with hh | hh
        · exact hh ▸ ⟨h1 hv, hs⟩
        · exact hrest m hh
    · rw [if_neg hv] at h
      have hnstack : n ∉ u :: s := fun hmem => hv (inv.stackSub n hmem)
      cases hvis : dfsVisit adj fuel n (u :: s) visited with
      | mk b v₁ =>
        cases b with
        | true => rw [hvis] at h; simp at h
        | false =>
          rw [hvis] at h
          obtain ⟨hv1, hnv1, hv1univ, inv₁⟩ := hP n (u :: s) visited v₁
            hFuel hclosure (hclosure u n hnu) hv hsub inv hvis
          obtain ⟨hh1, hh2, inv', hrest⟩ := ih u s v₁ v'
            (Nat.lt_of_le_of_lt (unvisCount_mono univ visited v₁ hv1) hFuel)
            hclosure (fun m hm => hns m (List.mem_cons_of_mem n hm))
            hv1univ inv₁ h
          refine ⟨fun x hx => hh1 (hv1 hx), hh2, inv', ?_⟩
          intro m hm
          rcases List.mem_cons.mp hm with hh | hh
          · exact hh ▸ ⟨hh1 hnv1, hnstack⟩
          · exact hrest m hh

theorem visit_false_of_loop (adj : AdjMap) (univ : List String) (fuel : Nat)
    (hQ : LoopFalseOK adj univ fuel) : VisitFalseOK adj univ (fuel + 1) := by
  intro u stack visited v' hFuel hclosure hu hnv hsub inv h
  rw [dfsVisit] at h
  have hstrict : unvisCount univ (u :: visited) < fuel := by
    have h1 := unvisCount_strict univ visited (u :: visited) u hu hnv
      (fun _ hx => List.mem_cons_of_mem u hx) (List.mem_cons_self u visited)
    omega
  have inv' : DfsInv adj (u :: stack) (u :: visited) := by
    refine ⟨?_, ?_, ?_⟩
    · intro x hx
      rcases List.mem_cons.mp hx with hh | hh
      · exact hh ▸ List.mem_cons_self u visited
      · exact List.mem_cons_of_mem u (inv.stackSub x hh)
    · intro b hb hbs n hn
      have hbu : b ≠ u := fun e => hbs (e ▸ List.mem_cons_self u stack)
      have hbv : b ∈ visited := by
        rcases List.mem_cons.mp hb with hh | hh
        · exact absurd hh hbu
        · exact hh
      have hbst : b ∉ stack := fun hx => hbs (List.mem_cons_of_mem u hx)
      obtain ⟨t1, t2⟩ := inv.closed b hbv hbst n hn
      refine ⟨List.mem_cons_of_mem u t1, ?_⟩
      intro hx
      rcases List.mem_cons.mp hx with hh | hh
      · exact hnv (hh ▸ t1)
      · exact t2 hh
    · intro b hb hbs
      have hbu : b ≠ u := fun e => hbs (e ▸ List.mem_cons_self u stack)
      have hbv : b ∈ visited := by
        rcases List.mem_cons.mp hb with hh | hh
        · exact absurd hh hbu
        · exact hh
      exact inv.acyc b hbv (fun hx => hbs (List.mem_cons_of_mem u hx))
  obtain ⟨l1, l2, linv, lns⟩ := hQ (adj.getD u) u stack (u :: visited) v'
    hstrict hclosure (fun n hn => hn)
    (fun x hx => by
      rcases List.mem_cons.mp hx with hh | hh
      · exact hh ▸ hu
      · exact hsub hh)
    inv' h
  refine ⟨fun x hx => l1 (List.mem_cons_of_mem u hx),
    l1 (List.mem_cons_self u visited), l2, ?_, ?_, ?_⟩
  · intro x hx
    exact linv.stackSub x (List.mem_cons_of_mem u hx)
  · intro b hb hbs n hn
    by_cases hbu : b = u
    · subst hbu
      obtain ⟨t1, t2⟩ := lns n hn
      exact ⟨t1, fun hx => t2 (List.mem_cons_of_mem b hx)⟩
    · have hbs' : b ∉ u :: stack := by
        intro hx
        rcases List.mem_cons.mp hx with hh | hh
        · exact hbu hh
        · exact hbs hh
      obtain ⟨t1, t2⟩ := linv.closed b hb hbs' n hn
      exact ⟨t1, fun hx => t2 (List.mem_cons_of_mem u hx)⟩
  · intro b hb hbs
    by_cases hbu : b = u
    · subst hbu
      intro hcyc
      obtain ⟨n, hstep, hreach⟩ := (Relation.TransGen.head'_iff).mp hcyc
      have hSclosed : ∀ b', (b' ∈ v' ∧ ¬ b' ∈ b :: stack) →
          ∀ n' ∈ adj.getD b', n' ∈ v' ∧ ¬ n' ∈ b :: stack :=
        fun b' hb' n' hn' => linv.closed b' hb'.1 hb'.2 n' hn'
      have hSu := reflTransGen_stays adj
        (fun z => z ∈ v' ∧ ¬ z ∈ b :: stack) hSclosed n b hreach (lns n hstep)
      exact hSu.2 (List.mem_cons_self b stack)
    · have hbs' : b ∉ u :: stack := by
        intro hx
        rcases List.mem_cons.mp hx with hh | hh
        · exact hbu hh
        · exact hbs hh
      exact linv.acyc b hb hbs'

theorem visit_false_all (adj : AdjMap) (univ : List String) :
    ∀ fuel, VisitFalseOK adj univ fuel := by
  intro fuel
  induction fuel with
  | zero =>
    intro u stack visited v' hFuel
    exact absurd hFuel (Nat.not_lt_zero _)
  | succ f ih =>
    exact visit_false_of_loop adj univ f (loop_false_of_visit adj univ f ih)

theorem dfsTop_false_complete (adj : AdjMap) (univ : List String) (fuel : Nat)
    (hclosure : ∀ x : String, ∀ y ∈ adj.getD x, y ∈ univ) :
    ∀ (starts visited : List String),
      unvisCount univ visited < fuel →
      starts ⊆ univ → visited ⊆ univ → DfsInv adj [] visited →
      dfsTop adj fuel starts visited = false →
      ∃ v', visited ⊆ v' ∧ v' ⊆ univ ∧ DfsInv adj [] v'
        ∧ ∀ s ∈ starts, s ∈ v' := by
  intro starts
  induction starts with
  | nil =>
    intro visited _ _ hsub inv _
    exact ⟨visited, fun _ hx => hx, hsub, inv, by simp⟩
  | cons s ss ih =>
    intro visited hFuel hstarts hsub inv h
    rw [dfsTop] at h
    by_cases hv : s ∈ visited
    · rw [if_pos hv] at h
      obtain ⟨v', p1, p2, p3, p4⟩ := ih visited hFuel
        (fun x hx => hstarts (List.mem_cons_of_mem s hx)) hsub inv h
      refine ⟨v', p1, p2, p3, ?_⟩
      intro x hx
      rcases List.mem_cons.mp hx with hh | hh
      · exact hh ▸ p1 hv
      · exact p4 x hh
    · rw [if_neg hv] at h
      cases hvis : dfsVisit adj fuel s [] visited with
      | mk b v₁ =>
        cases b with
        | true => rw [hvis] at h; simp at h
        | false =>
          rw [hvis] at h
          obtain ⟨hv1, hsv1, hv1univ, inv₁⟩ := visit_false_all adj univ fuel
            s [] visited v₁ hFuel hclosure
            (hstarts (List.mem_cons_self s ss)) hv hsub inv hvis
          obtain ⟨v', p1, p2, p3, p4⟩ := ih v₁
            (Nat.lt_of_le_of_lt (unvisCount_mono univ visited v₁ hv1) hFuel)
            (fun x hx => hstarts (List.mem_cons_of_mem s hx)) hv1univ inv₁ h
          refine ⟨v', fun x hx => p1 (hv1 hx), p2, p3, ?_⟩
          intro x hx
          rcases List.mem_cons.mp hx with hh | hh
          · exact hh ▸ p1 hsv1
          · exact p4 x hh

theorem lookup_mem_pairs {β : Type} (l : List (String × β)) (k : String)
    (v : β) (h : List.lookup k l = some v) : (k, v) ∈ l := by
  induction l with
  | nil => simp [List.lookup] at h
  | cons hd tl ih =>
    obtain ⟨q, w⟩ := hd
    rw [lookup_cons'] at h
    by_cases hq : k = q
    · rw [if_pos hq] at h
      cases h
      exact hq ▸ List.mem_cons_self _ _
    · rw [if_neg hq] at h
      exact List.mem_cons_of_mem _ (ih h)

theorem unvisCount_nil (univ : List String) :
    unvisCount univ [] = univ.length := by
  simp [unvisCount]

theorem dfsUniverse_closure (g : Graph) :
    ∀ x : String, ∀ y ∈ g.adjacency.getD x, y ∈ g.dfsUniverse := by
  intro x y hy
  unfold AdjMap.getD at hy
  cases hl : List.lookup x g.adjacency with
  | none => rw [hl] at hy; simp at hy
  | some ys =>
    rw [hl] at hy
    simp only [Option.getD_some] at hy
    have hpair := lookup_mem_pairs g.adjacency x ys hl
    unfold Graph.dfsUniverse
    refine List.mem_append_right _ ?_
    rw [List.mem_flatten]
    exact ⟨ys, List.mem_map_of_mem Prod.snd hpair, hy⟩

theorem graph_has_cycle_sound (g : Graph) (h : g.has_cycle = true) :
    HasCycleIn g.adjacency := by
  unfold Graph.has_cycle at h
  exact dfsTop_true_sound g.adjacency (g.dfsUniverse.length + 1)
    (g.nodes.map Prod.fst) [] h

theorem graph_has_cycle_complete (g : Graph)
    (hcover : ∀ k ∈ g.adjacency.map Prod.fst, k ∈ g.nodes.map Prod.fst)
    (hcy : HasCycleIn g.adjacency) : g.has_cycle = true := by
  by_contra hfalse
  have hc : g.has_cycle = false := by
    cases h : g.has_cycle
    · rfl
    · exact absurd h hfalse
  unfold Graph.has_cycle at hc
  obtain ⟨v', _, _, inv, hstarts⟩ := dfsTop_false_complete g.adjacency
    g.dfsUniverse (g.dfsUniverse.length + 1) (dfsUniverse_closure g)
    (g.nodes.map Prod.fst) []
    (by rw [unvisCount_nil]; omega)
    (fun x hx => by
      unfold Graph.dfsUniverse
      exact List.mem_append_left _ (List.mem_append_left _ hx))
    (by simp)
    ⟨by simp, by simp, by simp⟩
    hc
  obtain ⟨u, hcyc⟩ := hcy
  obtain ⟨n, hstep, _⟩ := (Relation.TransGen.head'_iff).mp hcyc
  have hkey : u ∈ g.adjacency.map Prod.fst := by
    have hstep' : n ∈ g.adjacency.getD u := hstep
    unfold AdjMap.getD at hstep'
    cases hl : List.lookup u g.adjacency with
    | none => rw [hl] at hstep'; simp at hstep'
    | some ys =>
      exact List.mem_map_of_mem Prod.fst (lookup_mem_pairs g.adjacency u ys hl)
  exact inv.acyc u (hstarts u (hcover u hkey)) (by simp) hcyc

/-! ## Helper lemmas: constructed graphs and `validate` -/

theorem except_ok_bind {ε α β : Type} (a : α) (f : α → Except ε β) :
    (Except.ok a >>= f : Except ε β) = f a := rfl

theorem except_error_bind {ε α β : Type} (e : ε) (f : α → Except ε β) :
    (Except.error e >>= f : Except ε β) = Except.error e := rfl

theorem appendAt_keys (adj : AdjMap) (k v : String) (adj' : AdjMap)
    (h : AdjMap.appendAt adj k v = some adj') :
    adj'.map Prod.fst = adj.map Prod.fst := by
  induction adj generalizing adj' with
  | nil => simp [AdjMap.appendAt] at h
  | cons hd tl ih =>
    obtain ⟨q, vs⟩ := hd
    unfold AdjMap.appendAt at h
    by_cases hq : q = k
    · rw [if_pos hq] at h
      cases h
      rfl
    · rw [if_neg hq] at h
      cases htl : AdjMap.appendAt tl k v with
      | none => rw [htl] at h; simp at h
      | some tl' =>
        rw [htl] at h
        simp only [Option.map_some', Option.some.injEq] at h
        subst h
        simp [ih tl' htl]

theorem initFold_keys :
    ∀ (conns : List Connection) (m m' : AdjMap × AdjMap),
      Graph.initFold conns m = some m' →
      m'.1.map Prod.fst = m.1.map Prod.fst := by
  intro conns
  induction conns with
  | nil =>
    intro m m' h
    cases h
    rfl
  | cons c rest ih =>
    intro m m' h
    unfold Graph.initFold at h
    by_cases hc : c.enabled
    · rw [if_pos hc] at h
      cases hf : AdjMap.appendAt m.1 c.from_node c.to_node with
      | none => rw [hf] at h; cases h
      | some fwd =>
        cases hr : AdjMap.appendAt m.2 c.to_node c.from_node with
        | none => rw [hf, hr] at h; cases h
        | some rev =>
          rw [hf, hr] at h
          rw [ih (fwd, rev) m' h]
          exact appendAt_keys m.1 c.from_node c.to_node fwd hf
    · rw [if_neg hc] at h
      exact ih m m' h

theorem init_props (d : GraphDefinition) (g0 : Graph)
    (h : Graph.init d = some g0) :
    g0.adjacency.map Prod.fst = d.nodes.map NodeDefinition.id
      ∧ g0.nodes = [] := by
  unfold Graph.init at h
  cases hm : Graph.initFold d.connections (Graph.baseAdj d.nodes, Graph.baseAdj d.nodes) with
  | none => rw [hm] at h; simp at h
  | some maps =>
    rw [hm] at h
    simp only [Option.map_some', Option.some.injEq] at h
    have hk := initFold_keys d.connections _ maps hm
    subst h
    refine ⟨?_, rfl⟩
    simp only [hk, Graph.baseAdj, List.map_map]
    rfl

theorem ensureKey_keys (adj : AdjMap) (k x : String)
    (h : x ∈ (adj.ensureKey k).map Prod.fst) :
    x ∈ adj.map Prod.fst ∨ x = k := by
  unfold AdjMap.ensureKey at h
  by_cases hk : adj.hasKey k
  · rw [if_pos hk] at h
    exact Or.inl h
  · rw [if_neg hk] at h
    simp only [List.map_append, List.mem_append] at h
    rcases h with h | h
    · exact Or.inl h
    · simp at h
      exact Or.inr h

theorem foldl_add_node_props :
    ∀ (insts : List (String × NodeInst)) (g : Graph),
      ((insts.foldl (fun g p => g.add_node p.1 p.2) g).nodes
          = g.nodes ++ insts)
      ∧ ∀ x ∈ (insts.foldl (fun g p => g.add_node p.1 p.2) g).adjacency.map
          Prod.fst,
          x ∈ g.adjacency.map Prod.fst ∨ x ∈ insts.map Prod.fst := by
  intro insts
  induction insts with
  | nil => intro g; exact ⟨by simp, fun x hx => Or.inl hx⟩
  | cons p rest ih =>
    intro g
    simp only [List.foldl_cons]
    obtain ⟨h1, h2⟩ := ih (g.add_node p.1 p.2)
    constructor
    · rw [h1]
      simp [Graph.add_node]
    · intro x hx
      rcases h2 x hx with h | h
      · rcases ensureKey_keys g.adjacency p.1 x h with h' | h'
        · exact Or.inl h'
        · exact Or.inr (by simp [h'])
      · rw [List.map_cons]
        exact Or.inr (List.mem_cons_of_mem _ h)

theorem mkGraph_props (d : GraphDefinition) (insts : List (String × NodeInst))
    (g : Graph) (h : Graph.mkGraph d insts = some g) :
    g.nodes = insts
      ∧ ∀ x ∈ g.adjacency.map Prod.fst,
          x ∈ d.nodes.map NodeDefinition.id ∨ x ∈ insts.map Prod.fst := by
  unfold Graph.mkGraph at h
  cases h0 : Graph.init d with
  | none => rw [h0] at h; simp at h
  | some g0 =>
    rw [h0] at h
    simp only [Option.map_some', Option.some.injEq] at h
    obtain ⟨hk0, hn0⟩ := init_props d g0 h0
    obtain ⟨h1, h2⟩ := foldl_add_node_props insts g0
    subst h
    constructor
    · rw [h1, hn0]
      rfl
    · intro x hx
      rcases h2 x hx with h' | h'
      · exact Or.inl (hk0 ▸ h')
      · exact Or.inr h'

theorem vnd_no_cycle (g : Graph) :
    Graph.validate_node_definitions g ≠ .error .cycleDetected := by
  intro hh
  unfold Graph.validate_node_definitions at hh
  split at hh <;> simp at hh

theorem checkConnection_no_cycle (g : Graph) (c : Connection) :
    Graph.checkConnection g c ≠ .error .cycleDetected := by
  intro hh
  unfold Graph.checkConnection at hh
  split at hh
  · simp at hh
  · split at hh
    · simp at hh
    · split at hh
      · simp at hh
      · split at hh
        · simp at hh
        · split at hh
          · simp at hh
          · simp at hh

theorem validate_connections_no_cycle (g : Graph) :
    Graph.validate_connections g ≠ .error .cycleDetected := by
  unfold Graph.validate_connections
  suffices h : ∀ (conns : List Connection) (u : Unit),
      conns.foldlM (fun _ c => Graph.checkConnection g c) u
        ≠ .error .cycleDetected by
    exact h g.connections ()
  intro conns
  induction conns with
  | nil =>
    intro u hh
    rw [List.foldlM_nil,
      show (pure u : Except GraphError Unit) = Except.ok u from rfl] at hh
    simp at hh
  | cons c rest ih =>
    intro u hcontra
    rw [List.foldlM_cons] at hcontra
    cases hc : Graph.checkConnection g c with
    | error e =>
      rw [hc, except_error_bind] at hcontra
      rw [hcontra] at hc
      exact checkConnection_no_cycle g c hc
    | ok u' =>
      rw [hc, except_ok_bind] at hcontra
      exact ih u' hcontra

theorem validate_required_no_cycle (g : Graph) :
    Graph.validate_required_inputs g ≠ .error .cycleDetected := by
  unfold Graph.validate_required_inputs
  suffices h : ∀ (nodes : List (String × NodeInst)) (u : Unit),
      nodes.foldlM
        (fun _ p =>
          let missing := Graph.requiredMissing g p.1 p.2
          if missing.isEmpty then pure ()
          else Except.error (GraphError.missingRequiredInputs p.1 missing)) u
        ≠ .error .cycleDetected by
    exact h g.nodes ()
  intro nodes
  induction nodes with
  | nil =>
    intro u hh
    rw [List.foldlM_nil,
      show (pure u : Except GraphError Unit) = Except.ok u from rfl] at hh
    simp at hh
  | cons p rest ih =>
    intro u hcontra
    rw [List.foldlM_cons] at hcontra
    by_cases hm : (Graph.requiredMissing g p.1 p.2).isEmpty
    · rw [if_pos hm,
        show (pure () : Except GraphError Unit) = Except.ok () from rfl,
        except_ok_bind] at hcontra
      exact ih () hcontra
    · rw [if_neg hm, except_error_bind] at hcontra
      simp at hcontra

theorem validate_cycle_iff (g : Graph) :
    g.validate = .error .cycleDetected ↔ g.has_cycle = true := by
  constructor
  · intro h
    by_contra hc
    have hc' : g.has_cycle = false := by
      cases hb : g.has_cycle
      · rfl
      · exact absurd hb hc
    unfold Graph.validate at h
    rw [hc'] at h
    simp only [Bool.false_eq_true, if_false] at h
    rw [show (pure () : Except GraphError Unit) = Except.ok () from rfl,
      except_ok_bind] at h
    cases h1 : Graph.validate_node_definitions g with
    | error e =>
      rw [h1, except_error_bind] at h
      injection h with he
      rw [he] at h1
      exact vnd_no_cycle g h1
    | ok _ =>
      rw [h1, except_ok_bind] at h
      cases h2 : Graph.validate_connections g with
      | error e =>
        rw [h2, except_error_bind] at h
        injection h with he
        rw [he] at h2
        exact validate_connections_no_cycle g h2
      | ok _ =>
        rw [h2, except_ok_bind] at h
        cases h3 : Graph.validate_required_inputs g with
        | error e =>
          rw [h3, except_error_bind] at h
          injection h with he
          rw [he] at h3
          exact validate_required_no_cycle g h3
        | ok _ =>
          rw [h3, except_ok_bind] at h
          cases h
  · intro h
    unfold Graph.validate
    rw [h]
    rfl

/-- C2: for every graph built by the standard construction path
(`Graph(graph_def)` followed by `add_node` for each instantiated node),
with an instance present for every definition node, `validate` raises the
cycle-detection error exactly when the adjacency built from the enabled
connections contains a directed cycle.  In particular validation fails
whenever such a cycle exists. -/
theorem C2_cycle_error_iff_cycle (d : GraphDefinition)
    (insts : List (String × NodeInst)) (g : Graph)
    (hg : Graph.mkGraph d insts = some g)
    (hcover : ∀ nd ∈ d.nodes, nd.id ∈ insts.map Prod.fst) :
    g.validate = .error .cycleDetected ↔ HasCycleIn g.adjacency := by
  obtain ⟨hnodes, hkeys⟩ := mkGraph_props d insts g hg
  rw [validate_cycle_iff]
  constructor
  · exact fun h => graph_has_cycle_sound g h
  · intro hcy
    refine graph_has_cycle_complete g ?_ hcy
    intro k hk
    rw [hnodes]
    rcases hkeys k hk with h | h
    · obtain ⟨nd, hnd, hid⟩ := List.mem_map.mp h
      exact hid ▸ hcover nd hnd
    · exact h

/-- A node instance with one `Image` input and one `Image` output, used by
the concrete witnesses. -/
def instImg : NodeInst :=
  { inputs := [{ name := "in", typeName := "Image" }],
    outputs := [{ name := "out", typeName := "Image" }] }

/-- A two-node definition whose enabled connections form the cycle
`A -> B -> A`. -/
def dCyc : GraphDefinition :=
  { name := "cyc", version := "1",
    nodes := [{ id := "A", type := "t" }, { id := "B", type := "t" }],
    connections := [⟨"A", "out", "B", "in", true⟩, ⟨"B", "out", "A", "in", true⟩] }

/-- The instances of the cyclic witness graph. -/
def instsCyc : List (String × NodeInst) := [("A", instImg), ("B", instImg)]

/-- The cyclic witness graph as `Graph(dCyc)` plus the two `add_node`
calls produce it. -/
def gCyc : Graph :=
  { definition := dCyc, nodes := instsCyc, connections := dCyc.connections,
    adjacency := [("A", ["B"]), ("B", ["A"])],
    reverse_adjacency := [("A", ["B"]), ("B", ["A"])] }

/-- Witness for C2 at the concrete cyclic graph: validation raises the
cycle error, and the adjacency indeed has a cycle. -/
theorem C2_witness :
    Graph.validate gCyc = .error .cycleDetected ∧ HasCycleIn gCyc.adjacency := by
  have hcyc : HasCycleIn gCyc.adjacency :=
    ⟨"A", Relation.TransGen.head
      (show "B" ∈ gCyc.adjacency.getD "A" by decide)
      (Relation.TransGen.single
        (show "A" ∈ gCyc.adjacency.getD "B" by decide))⟩
  exact ⟨(C2_cycle_error_iff_cycle dCyc instsCyc gCyc (by decide)
      (by decide)).mpr hcyc, hcyc⟩

theorem validate_eval_ok (g : Graph) (hc : g.has_cycle = false)
    (h1 : Graph.validate_node_definitions g = .ok ())
    (h2 : Graph.validate_connections g = .ok ())
    (h3 : Graph.validate_required_inputs g = .ok ()) :
    g.validate = .ok true := by
  unfold Graph.validate
  rw [hc]
  simp only [Bool.false_eq_true, if_false]
  rw [show (pure () : Except GraphError Unit) = Except.ok () from rfl,
    except_ok_bind, h1, except_ok_bind, h2, except_ok_bind, h3, except_ok_bind]
  rfl

/-- A source instance with one `Image` output and no inputs. -/
def instS : NodeInst :=
  { outputs := [{ name := "out", typeName := "Image" }] }

/-- A sink instance with one required `Number` input. -/
def instT : NodeInst :=
  { inputs := [{ name := "in", typeName := "Number", required := true }] }

/-- A definition wiring the `Image` output of `S` into the `Number` input
of `T` — a type-incompatible edge. -/
def dBad : GraphDefinition :=
  { name := "bad", version := "1",
    nodes := [{ id := "S", type := "src" }, { id := "T", type := "sink" }],
    connections := [⟨"S", "out", "T", "in", true⟩] }

/-- The graph the standard construction path builds from `dBad`. -/
def gBad : Graph :=
  { definition := dBad, nodes := [("S", instS), ("T", instT)],
    connections := dBad.connections,
    adjacency := [("S", ["T"]), ("T", [])],
    reverse_adjacency := [("S", []), ("T", ["S"])] }

/-- C1 (failing input): the graph `gBad` wires an `Image` output into a
`Number` input; the two types are incompatible in the registry, yet
`validate` succeeds — `_validate_connections` checks only that the
endpoint nodes and ports exist, and skips the type-compatibility check
(the source marks it as temporarily skipped). -/
theorem C1_validate_ignores_type_compatibility :
    Graph.mkGraph dBad [("S", instS), ("T", instT)] = some gBad
    ∧ Graph.validate gBad = .ok true
    ∧ ((gBad.get_node "S").getD {}).outputs.find? (fun p => p.name = "out")
        = some { name := "out", typeName := "Image" }
    ∧ ((gBad.get_node "T").getD {}).inputs.find? (fun p => p.name = "in")
        = some { name := "in", typeName := "Number", required := true }
    ∧ TypeRegistry.check_compatibility builtinRegistry "Image" "Number" = false := by
  refine ⟨by decide, ?_, by decide, by decide, by decide⟩
  refine validate_eval_ok gBad ?_ (by rfl) (by rfl) (by rfl)
  simp [Graph.has_cycle, Graph.dfsUniverse, dfsTop, dfsVisit, dfsLoop,
    AdjMap.getD, gBad, List.lookup]

/-- A sink instance with one required `Image` input. -/
def instB : NodeInst :=
  { inputs := [{ name := "in", typeName := "Image", required := true }] }

/-- A definition in which two enabled edges feed the same input port
`B.in`. -/
def dMulti : GraphDefinition :=
  { name := "multi", version := "1",
    nodes := [{ id := "A", type := "src" }, { id := "C", type := "src" },
              { id := "B", type := "sink" }],
    connections := [⟨"A", "out", "B", "in", true⟩, ⟨"C", "out", "B", "in", true⟩] }

/-- The graph the standard construction path builds from `dMulti`. -/
def gMulti : Graph :=
  { definition := dMulti,
    nodes := [("A", instS), ("C", instS), ("B", instB)],
    connections := dMulti.connections,
    adjacency := [("A", ["B"]), ("C", ["B"]), ("B", [])],
    reverse_adjacency := [("A", []), ("C", []), ("B", ["A", "C"])] }

/-- Counterexample to C5: `gMulti` has two enabled edges into the single
input port `B.in`, violating the at-most-one rule (and the exactly-one
rule for the required port), yet `validate` succeeds. -/
theorem C5_counterexample :
    Graph.mkGraph dMulti [("A", instS), ("C", instS), ("B", instB)]
      = some gMulti
    ∧ Graph.validate gMulti = .ok true
    ∧ (gMulti.connections.filter
        (fun c => c.to_node = "B" && c.to_port = "in" && c.enabled)).length = 2
    ∧ (2 : Nat) ≠ 1 := by
  refine ⟨by decide, ?_, by decide, by decide⟩
  refine validate_eval_ok gMulti ?_ (by rfl) (by rfl) (by rfl)
  simp [Graph.has_cycle, Graph.dfsUniverse, dfsTop, dfsVisit, dfsLoop,
    AdjMap.getD, gMulti, List.lookup]

theorem validate_ok_required (g : Graph) (b : Bool) (h : g.validate = .ok b) :
    Graph.validate_required_inputs g = .ok () := by
  unfold Graph.validate at h
  by_cases hc : g.has_cycle
  · rw [hc] at h
    simp only [if_true] at h
    rw [show (throw GraphError.cycleDetected : Except GraphError Unit)
        = Except.error GraphError.cycleDetected from rfl,
      except_error_bind] at h
    cases h
  · have hc' : g.has_cycle = false := by
      cases hb : g.has_cycle
      · rfl
      · exact absurd hb hc
    rw [hc'] at h
    simp only [Bool.false_eq_true, if_false] at h
    rw [show (pure () : Except GraphError Unit) = Except.ok () from rfl,
      except_ok_bind] at h
    cases h1 : Graph.validate_node_definitions g with
    | error e => rw [h1, except_error_bind] at h; cases h
    | ok _ =>
      rw [h1, except_ok_bind] at h
      cases h2 : Graph.validate_connections g with
      | error e => rw [h2, except_error_bind] at h; cases h
      | ok _ =>
        rw [h2, except_ok_bind] at h
        cases h3 : Graph.validate_required_inputs g with
        | error e => rw [h3, except_error_bind] at h; cases h
        | ok u => cases u; rfl

theorem required_fold_ok (g : Graph) :
    ∀ (nodes : List (String × NodeInst)) (u : Unit),
      nodes.foldlM
        (fun _ p =>
          let missing := Graph.requiredMissing g p.1 p.2
          if missing.isEmpty then pure ()
          else Except.error (GraphError.missingRequiredInputs p.1 missing)) u
        = Except.ok () →
      ∀ p ∈ nodes, Graph.requiredMissing g p.1 p.2 = [] := by
  intro nodes
  induction nodes with
  | nil => intro u _ p hp; simp at hp
  | cons q rest ih =>
    intro u h p hp
    rw [List.foldlM_cons] at h
    by_cases hm : (Graph.requiredMissing g q.1 q.2).isEmpty
    · rcases List.mem_cons.mp hp with hh | hh
      · subst hh
        exact List.isEmpty_iff.mp hm
      · rw [if_pos hm,
          show (pure () : Except GraphError Unit) = Except.ok () from rfl,
          except_ok_bind] at h
        exact ih () h p hh
    · rw [if_neg hm, except_error_bind] at h
      cases h

/-- C5 (amended): a successful validation guarantees that every required
input port of every node instance has at least one enabled incoming
connection.  Validation does not bound the number of enabled edges per
input port — see the counterexample, where two enabled edges into one
input port pass — so only the at-least-one half of the claimed rules is
enforced. -/
theorem C5_required_inputs_connected (g : Graph) (b : Bool)
    (h : g.validate = .ok b) :
    ∀ p ∈ g.nodes, ∀ port ∈ p.2.inputs, port.required = true →
      ∃ c ∈ g.connections,
        c.enabled = true ∧ c.to_node = p.1 ∧ c.to_port = port.name := by
  intro p hp port hport hreq
  have hvri := validate_ok_required g b h
  unfold Graph.validate_required_inputs at hvri
  have hmiss := required_fold_ok g g.nodes () hvri p hp
  by_contra hnone
  push_neg at hnone
  have hany : (g.connections.any
      (fun c => c.to_node = p.1 && c.enabled && c.to_port = port.name)) = false := by
    rw [Bool.eq_false_iff]
    intro hx
    obtain ⟨c, hc, hcp⟩ := List.any_eq_true.mp hx
    simp only [Bool.and_eq_true, decide_eq_true_eq] at hcp
    exact hnone c hc hcp.1.2 hcp.1.1 hcp.2
  have hin : port.name ∈ Graph.requiredMissing g p.1 p.2 := by
    unfold Graph.requiredMissing
    rw [List.mem_filter]
    refine ⟨List.mem_map_of_mem Port.name
      (List.mem_filter.mpr ⟨hport, by simp [hreq]⟩), ?_⟩
    simp [hany]
  rw [hmiss] at hin
  simp at hin

/-- Witness for C5's amended statement: on `gMulti`, which validates
successfully, the required `Image` input `B.in` is connected. -/
theorem C5_witness :
    ∃ c ∈ gMulti.connections,
      c.enabled = true ∧ c.to_node = "B" ∧ c.to_port = "in" := by
  have hval : Graph.validate gMulti = .ok true := by
    refine validate_eval_ok gMulti ?_ (by rfl) (by rfl) (by rfl)
    simp [Graph.has_cycle, Graph.dfsUniverse, dfsTop, dfsVisit, dfsLoop,
      AdjMap.getD, gMulti, List.lookup]
  exact C5_required_inputs_connected gMulti true hval ("B", instB) (by decide)
    { name := "in", typeName := "Image", required := true } (by decide) rfl

end ServiceDAG
